import Mathlib

/-!
Verification of the dynamic_memory_agent retrieval core against its
natural-language specification.  Each section shallowly embeds one component
of the Python source (src/src/dma/...) as Lean definitions, and the theorems
at the end of the file prove the specified properties about them.

Conventions used throughout:
- Python floats are modelled as real numbers where the claims are analytic
  (time decay) and as rationals where concrete evaluation is required
  (retrieval scores).
- Python lists and dicts become Lean lists and insertion-ordered association
  lists.
- Cypher queries executed by the Neo4j store are embedded as Lean functions
  on an explicit store state, clause by clause, with comments tying each
  function to the query text it models.
-/

namespace DMA

/-! ## Core memory model: TimeRelevance (src/src/dma/core/memory.py)

The enum TimeRelevance with ordinal severity UNKNOWN(0) .. ALWAYS(7), its
decay function timeDecay, and the static queryRelevance combinator. -/

/-- Module constant from src/src/dma/core/memory.py line 7. -/
noncomputable def unknownMultiplier : ℝ := 0.9

/-- Enum TimeRelevance, memory.py lines 49-56. -/
inductive TimeRelevance
  | UNKNOWN
  | DAY
  | WEEK
  | MONTH
  | YEAR
  | DECADE
  | CENTURY
  | ALWAYS
deriving DecidableEq, Repr

/-- Numeric value of each enum member, memory.py lines 49-56. -/
def TimeRelevance.value : TimeRelevance → Nat
  | .UNKNOWN => 0
  | .DAY => 1
  | .WEEK => 2
  | .MONTH => 3
  | .YEAR => 4
  | .DECADE => 5
  | .CENTURY => 6
  | .ALWAYS => 7

/-- The Python enum constructor TimeRelevance(int) for the values 0..7.  The
source raises ValueError for any other argument; queryRelevance below only
constructs it from a min of two member values, which always lies in 0..7, so
the catch-all branch is never reached there. -/
def TimeRelevance.ofValue : Nat → TimeRelevance
  | 0 => .UNKNOWN
  | 1 => .DAY
  | 2 => .WEEK
  | 3 => .MONTH
  | 4 => .YEAR
  | 5 => .DECADE
  | 6 => .CENTURY
  | 7 => .ALWAYS
  | _ => .UNKNOWN

/-- Half time in days chosen by time_decay, memory.py lines 89-109.  The
initial value 1000 is kept for UNKNOWN, where the source returns before ever
using it. -/
noncomputable def TimeRelevance.halfTime : TimeRelevance → ℝ
  | .UNKNOWN => 1000
  | .DAY => 2
  | .WEEK => 14
  | .MONTH => 60
  | .YEAR => 730
  | .DECADE => 7300
  | .CENTURY => 73000
  | .ALWAYS => 730000

/-- TimeRelevance.time_decay, memory.py lines 85-126: UNKNOWN returns a flat
multiplier; ALWAYS blends a 0.8 floor with a slowly decaying 0.2 share; the
other kinds decay exponentially with rate log 2 / half_time per day, where
days_since = sec_since / 86400. -/
noncomputable def TimeRelevance.timeDecay (tr : TimeRelevance) (value : ℝ) (secSince : ℝ) : ℝ :=
  if tr = .UNKNOWN then
    unknownMultiplier * value
  else
    let daysSince : ℝ := secSince / 86400
    let decayRate : ℝ := Real.log 2 / tr.halfTime
    if tr = .ALWAYS then
      0.8 * value + 0.2 * value * Real.exp (-decayRate * daysSince)
    else
      value * Real.exp (-decayRate * daysSince)

/-- TimeRelevance.query_relevance, memory.py lines 128-175: take the more
time-sensitive (smaller-valued) of the two relevance kinds and apply its
time_decay to the absolute time difference. -/
noncomputable def TimeRelevance.queryRelevance (qRelevance : TimeRelevance) (qTime : ℝ)
    (mRelevance : TimeRelevance) (mTime : ℝ) (value : ℝ := 1.0) : ℝ :=
  let relevance := TimeRelevance.ofValue (min qRelevance.value mRelevance.value)
  relevance.timeDecay value |qTime - mTime|

/-! ## String helpers

Structural re-implementations of the Python string primitives the evaluator
uses (str.lower, str.strip, str.split), restricted to ASCII case mapping,
written so that they reduce by kernel computation. -/

/-- ASCII lower-casing of one character, as Python str.lower acts on the
ASCII letters appearing in relevance strings and entity names. -/
def lowerChar (c : Char) : Char :=
  if 65 ≤ c.toNat ∧ c.toNat ≤ 90 then Char.ofNat (c.toNat + 32) else c

/-- Python str.lower over the whole string. -/
def lowerStr (s : String) : String := ⟨s.data.map lowerChar⟩

/-- Python str.strip: drop whitespace from both ends. -/
def trimStr (s : String) : String :=
  ⟨((s.data.dropWhile (fun c => c.isWhitespace)).reverse.dropWhile
      (fun c => c.isWhitespace)).reverse⟩

/-- Python str.split with no argument: split on whitespace runs, discarding
empty words.  Helper over character lists. -/
def wordsAux : List Char → List Char → List (List Char)
  | [], acc => if acc.isEmpty then [] else [acc.reverse]
  | c :: cs, acc =>
    if c.isWhitespace then
      if acc.isEmpty then wordsAux cs [] else acc.reverse :: wordsAux cs []
    else wordsAux cs (c :: acc)

/-- NER.normalize_entity, src/src/dma/utils/ner.py lines 21-36:
entity.strip().lower(), then whitespace runs replaced by single hyphens. -/
def normalizeEntity (entity : String) : String :=
  let ent := lowerStr (trimStr entity)
  "-".intercalate ((wordsAux ent.data []).map (fun w => (⟨w⟩ : String)))

/-! ## Memory evaluator (src/src/dma/memory/evaluator.py)

The 5-tier relevance scale with UNKNOWN fallback, the pydantic shapes of the
generator output, and MemoryEvaluator._parse_evaluation_result (lines
213-278).  The input memories are modelled generically as elements of a type
with decidable equality, matching the structural equality Python uses for
the membership test mem not in memory_list. -/

/-- Enum MemoryRelevance, evaluator.py lines 14-20. -/
inductive MemoryRelevance
  | UNKNOWN
  | NONSENSE
  | IRRELEVANT
  | SUPPORTING
  | RELEVANT
  | PERFECT
deriving DecidableEq, Repr

/-- Pydantic model MemoryEvaluation, evaluator.py lines 23-27. -/
structure MemoryEvaluation where
  memoryIdInt : Int
  shortFeedbackStr : String := ""
  memoryKeywordsList : List String := []
  relevanceStr : String
deriving DecidableEq, Repr

/-- Pydantic model EvaluationResult, evaluator.py lines 29-33. -/
structure EvaluationResult where
  evaluationsList : List MemoryEvaluation := []
  summaryStr : String := ""
  missingKeywordsList : List String := []
  fullyAnsweredBool : Bool := false
deriving Repr

/-- Dataclass Evaluation, evaluator.py lines 99-126, generic in the memory
type. -/
structure Evaluation (α : Type) where
  summary : String := ""
  memories : List α := []
  ratings : List MemoryRelevance := []
  memoryKeywords : List (List String) := []
  missingKeywords : List String := []
  fullyAnswered : Bool := false

/-- The match on relevance = e.relevance_str.lower(), evaluator.py lines
239-255; any unrecognized string becomes UNKNOWN. -/
def parseRelevance (relevanceStr : String) : MemoryRelevance :=
  match lowerStr relevanceStr with
  | "nonsense" => .NONSENSE
  | "irrelevant" => .IRRELEVANT
  | "supporting" => .SUPPORTING
  | "relevant" => .RELEVANT
  | "perfect" => .PERFECT
  | _ => .UNKNOWN

/-- The bounds-checked one-based lookup mem_id = e.memory_id_int - 1 with the
guard mem_id < 0 or mem_id >= len(memories), evaluator.py lines 235-238:
none models the continue that drops the entry. -/
def lookupById {α : Type} (memories : List α) (memoryIdInt : Int) : Option α :=
  if memoryIdInt - 1 < 0 then none else memories[(memoryIdInt - 1).toNat]?

/-- One iteration of the loop for e in evaluations, evaluator.py lines
234-259: skip invalid ids, otherwise append the memory, its parsed relevance
and its normalized keywords to the three accumulator lists. -/
def parseEvalStep {α : Type} (memories : List α)
    (acc : List α × List MemoryRelevance × List (List String)) (e : MemoryEvaluation) :
    List α × List MemoryRelevance × List (List String) :=
  match lookupById memories e.memoryIdInt with
  | none => acc
  | some mem =>
    (acc.1 ++ [mem], acc.2.1 ++ [parseRelevance e.relevanceStr],
      acc.2.2 ++ [e.memoryKeywordsList.map normalizeEntity])

/-- One iteration of the backfill loop for mem in memories, evaluator.py
lines 264-268: memories absent from the accumulated list are appended with
UNKNOWN relevance and no keywords. -/
def backfillStep {α : Type} [DecidableEq α]
    (acc : List α × List MemoryRelevance × List (List String)) (mem : α) :
    List α × List MemoryRelevance × List (List String) :=
  if mem ∈ acc.1 then acc
  else (acc.1 ++ [mem], acc.2.1 ++ [MemoryRelevance.UNKNOWN], acc.2.2 ++ [[]])

/-- The accumulated (memory_list, scores, keywords_list) triple of
_parse_evaluation_result, evaluator.py lines 229-268: the evaluation loop
followed by the length-gated backfill loop. -/
def parsedTriple {α : Type} [DecidableEq α] (result : EvaluationResult) (memories : List α) :
    List α × List MemoryRelevance × List (List String) :=
  let acc := result.evaluationsList.foldl (parseEvalStep memories) ([], [], [])
  if acc.1.length ≠ memories.length then memories.foldl backfillStep acc else acc

/-- MemoryEvaluator._parse_evaluation_result, evaluator.py lines 213-278. -/
def parseEvaluationResult {α : Type} [DecidableEq α] (result : EvaluationResult)
    (memories : List α) : Evaluation α :=
  let acc := parsedTriple result memories
  { summary := result.summaryStr
    memories := acc.1
    ratings := acc.2.1
    memoryKeywords := acc.2.2
    missingKeywords := result.missingKeywordsList
    fullyAnswered := result.fullyAnsweredBool }

/-- Concrete generator output rating memory id 1 twice, used to refute the
unconditional completeness claim. -/
def dupIdResult : EvaluationResult :=
  { evaluationsList :=
      [ { memoryIdInt := 1, relevanceStr := "perfect" },
        { memoryIdInt := 1, relevanceStr := "perfect" } ] }

/-- Concrete generator output rating memory 1 and referencing the
out-of-range id 5, used as the witness input for the amended claim. -/
def partialEvalResult : EvaluationResult :=
  { evaluationsList :=
      [ { memoryIdInt := 1, relevanceStr := "supporting" },
        { memoryIdInt := 5, relevanceStr := "perfect" } ] }

/-! ## Retrieval session model (src/src/dma/core/retrieval.py) and query
generator (src/src/dma/query/query_generator.py)

The Retrieval aggregate and its mutators add_step and mark_satisfactory, and
generate_queries with its three-attempt retry loop.  The external Generator
composed with _parse_response is abstracted as a stream of attempt
outcomes: position i of the stream holds the RetrievalStep parsed on attempt
i, or none when generation or parsing raised. -/

/-- Dataclass EntityQuery, retrieval.py lines 16-28. -/
structure EntityQuery where
  entity : String
  weight : ℚ := 1

/-- Dataclass EmbeddingQuery, retrieval.py lines 72-87; the embedding vector
itself is external (the opaque embed function) and not modelled. -/
structure EmbeddingQuery where
  queryText : String
  weight : ℚ := 1

/-- Dataclass RetrievalQuery, retrieval.py lines 111-131 (time fields
omitted; no claim touches them here). -/
structure RetrievalQuery where
  entityQueries : List EntityQuery := []
  embeddingQuery : Option EmbeddingQuery := none

/-- Dataclass MemoryResult, retrieval.py lines 203-216, with the memory
reduced to its text. -/
structure MemoryResult where
  memoryText : String
  score : ℚ := 0

/-- Dataclass RetrievalStep, retrieval.py lines 218-242. -/
structure RetrievalStep where
  queries : List RetrievalQuery := []
  results : List MemoryResult := []
  reasoning : String := ""
  summary : String := ""
  clarificationNeeded : Bool := false
  isPreQuery : Bool := false

/-- Dataclass Retrieval, retrieval.py lines 244-277 (the conversation and
user prompt references are external context and not modelled). -/
structure Retrieval where
  steps : List RetrievalStep := []
  finalSummary : String := ""
  maxIterations : Nat := 3
  currentIteration : Nat := 0
  done : Bool := false
  satisfactory : Bool := false

/-- Retrieval.add_step, retrieval.py lines 279-291: append the step,
increment current_iteration, and set done once current_iteration reaches
max_iterations. -/
def Retrieval.addStep (r : Retrieval) (step : RetrievalStep) : Retrieval :=
  let r := { r with steps := r.steps ++ [step],
                    currentIteration := r.currentIteration + 1 }
  if r.maxIterations ≤ r.currentIteration then { r with done := true } else r

/-- Retrieval.mark_satisfactory, retrieval.py lines 293-298. -/
def Retrieval.markSatisfactory (r : Retrieval) : Retrieval :=
  { r with satisfactory := true, done := true }

/-- The attempt budget max_attempts of generate_queries,
query_generator.py line 76. -/
def maxAttempts : Nat := 3

/-- The retry loop of generate_queries, query_generator.py lines 80-92:
attempt after attempt until one parses (some step) or the budget of three
failures is spent; the failure counter only advances on an exception, and a
success leaves the loop at once, so attempt a examines outcome a. -/
def queryAttemptLoop (outcomes : Nat → Option RetrievalStep) (attempts : Nat) :
    Option RetrievalStep :=
  if _h : attempts < maxAttempts then
    match outcomes attempts with
    | some step => some step
    | none => queryAttemptLoop outcomes (attempts + 1)
  else none
termination_by maxAttempts - attempts
decreasing_by omega

/-- QueryGenerator.generate_queries, query_generator.py lines 75-104,
acting on an existing Retrieval: on a parsed step, add it and mark the
retrieval satisfactory when the step carries no queries; when every attempt
failed, set done and clear satisfactory without adding a step. -/
def generateQueries (outcomes : Nat → Option RetrievalStep) (retrieval : Retrieval) :
    Retrieval :=
  match queryAttemptLoop outcomes 0 with
  | some step =>
    let r := retrieval.addStep step
    if step.queries.length = 0 then r.markSatisfactory else r
  | none => { retrieval with done := true, satisfactory := false }

/-- Modelled from the spec: the Retrieval Loop of section 4.5, which calls
generate_queries once per round and loops "unless done (iteration cap or
satisfactory or generation failure)".  The loop driver itself is not among
the sources under src (only pipeline_status.py is present there), so the
guard on done is taken from the spec; generate_queries and the Retrieval
mutators it composes are embedded from the source above. -/
def retrievalLoop (rounds : List (Nat → Option RetrievalStep)) (r : Retrieval) : Retrieval :=
  rounds.foldl (fun r outcomes => if r.done then r else generateQueries outcomes r) r

/-- The fresh Retrieval generate_queries constructs when called without one,
query_generator.py lines 65-73, with the dataclass defaults (in particular
max_iterations = 3). -/
def freshRetrieval : Retrieval := {}

/-! ## Neo4j graph memory store (src/src/dma/memory/graph/neo4j_memory.py)

Every public operation runs one Cypher statement inside one transaction.
The slices of the store state each statement touches are modelled
explicitly, and each statement is embedded clause by clause. -/

/-- Enum FeedbackType, src/src/dma/core/memory.py lines 187-190. -/
inductive FeedbackType
  | POSITIVE
  | NEGATIVE
  | NEUTRAL
deriving DecidableEq, Repr

/-- The fields of a Memory node that _update_memory_access touches. -/
structure AccessNode where
  id : String
  lastAccess : Int
  totalAccessCount : Nat
  positiveAccessCount : Nat
  negativeAccessCount : Nat
deriving DecidableEq, Repr

/-- Neo4jMemory._update_memory_access, neo4j_memory.py lines 751-769.  The
source first writes the complete statement (UNWIND mem_ids, MATCH by id, SET
last_access = timestamp() and total_access_count + 1, RETURN m.id AS mem_id)
into the query string and only afterwards appends the feedback fragment
", m.positive_access_count = coalesce(m.positive_access_count, 0) + 1" (or
the negative variant).  The appended fragment therefore lands after the
RETURN clause: in Cypher it extends the RETURN projection, where the equals
sign is an equality comparison, not the SET clause.  Executed against the
store, the statement updates last_access and total_access_count only, for
every feedback kind, and returns the matched ids in order; the feedback
counters are never written. -/
def updateMemoryAccess (store : List AccessNode) (memIds : List String)
    (feedback : FeedbackType) (now : Int) : List AccessNode × List String :=
  memIds.foldl
    (fun acc mid =>
      if acc.1.any (fun m => m.id == mid) then
        (acc.1.map (fun m =>
          if m.id == mid then
            { m with lastAccess := now, totalAccessCount := m.totalAccessCount + 1 }
          else m),
         acc.2 ++ [mid])
      else acc)
    (store, [])

/-- One memory row of a batch insert (the dict _add_memory_batch builds per
memory, neo4j_memory.py lines 314-327): its id, its entities dict as a list
of (name, count) pairs with unique names, its authors and its optional
normalized source key. -/
structure BatchMemory where
  id : String
  entities : List (String × Nat) := []
  authors : List String := []
  source : Option String := none
deriving Repr

/-- A MENTIONS edge (Memory to Entity) with its count property and the
transient isNew flag _add_memory_batch uses. -/
structure MentionEdge where
  mem : String
  ent : String
  count : Nat
  isNew : Bool
deriving DecidableEq, Repr

/-- The slice of the graph store that the batch-insert statement touches:
Memory node ids, MENTIONS edges, the per-entity mentionsCount, the
MENTIONED_WITH counters keyed by the ordered name pair (first < second),
AUTHORED_BY and SOURCED_FROM links, and the Storage singleton counter. -/
structure GraphDB where
  memoryIds : List String := []
  mentions : List MentionEdge := []
  entityCounts : List (String × Nat) := []
  coMentions : List ((String × String) × Nat) := []
  authored : List (String × String) := []
  sourced : List (String × String) := []
  storageTotal : Nat := 0
deriving Repr

/-- The MENTIONS edge of one memory-entity pair, if present. -/
def findMention (g : GraphDB) (memId entName : String) : Option MentionEdge :=
  g.mentions.find? (fun e => e.mem == memId && e.ent == entName)

/-- Association-list upsert with increment, as MERGE .. ON CREATE SET c = 1
ON MATCH SET c = c + 1 behaves on a keyed counter: the matched entry is
incremented, a missing key is created at count 1. -/
def bumpCounter {κ : Type} [BEq κ] : List (κ × Nat) → κ → List (κ × Nat)
  | [], key => [(key, 1)]
  | p :: ps, key =>
    if p.1 == key then (p.1, p.2 + 1) :: ps else p :: bumpCounter ps key

/-- Counter read from a keyed association list, 0 when the key is absent. -/
def countOf {κ : Type} [BEq κ] (l : List (κ × Nat)) (key : κ) : Nat :=
  ((l.find? (fun q => q.1 == key)).map Prod.snd).getD 0

/-- MERGE (e:Entity ..) MERGE (m)-[men:MENTIONS]->(e) ON CREATE SET
men.isNew = true, e.mentionsCount = coalesce(e.mentionsCount, 0) + 1,
then SET men.count = entity_data.count (neo4j_memory.py lines 374-380): an
existing edge only has its count rewritten; a new edge is created flagged
isNew with the entity counter incremented. -/
def upsertMention (g : GraphDB) (memId entName : String) (count : Nat) : GraphDB :=
  match findMention g memId entName with
  | some _ =>
    { g with mentions := g.mentions.map (fun e =>
        if e.mem == memId && e.ent == entName then { e with count := count } else e) }
  | none =>
    { g with
        mentions := g.mentions ++ [⟨memId, entName, count, true⟩],
        entityCounts := bumpCounter g.entityCounts entName }

/-- Lexicographic code-point comparison over character lists, as the Cypher
inequality e1.name < e2.name orders entity names; written structurally so
that it evaluates by kernel computation. -/
def charsLt : List Char → List Char → Bool
  | [], [] => false
  | [], _ :: _ => true
  | _ :: _, [] => false
  | c :: cs, d :: ds => if c < d then true else if d < c then false else charsLt cs ds

/-- String comparison used by the WHERE e1.name < e2.name filter. -/
def strLt (a b : String) : Bool := charsLt a.data b.data

/-- The ordered entity pairs produced by UNWIND entity_nodes AS e1, UNWIND
entity_nodes AS e2, WHERE e1.name < e2.name (neo4j_memory.py lines
390-393). -/
def entityPairs (names : List String) : List (String × String) :=
  names.flatMap (fun e1 =>
    names.filterMap (fun e2 => if strLt e1 e2 then some (e1, e2) else none))

/-- The gated co-mention MERGE, neo4j_memory.py lines 395-401: both MENTIONS
edges of the pair must exist for this memory and at least one must be
flagged isNew; then the MENTIONED_WITH coMentionCount is created at 1 or
incremented by 1. -/
def coMentionStep (memId : String) (g : GraphDB) (p : String × String) : GraphDB :=
  match findMention g memId p.1, findMention g memId p.2 with
  | some men1, some men2 =>
    if men1.isNew || men2.isNew then
      { g with coMentions := bumpCounter g.coMentions p }
    else g
  | _, _ => g

/-- MERGE (m:Memory, id) of one row, neo4j_memory.py lines 331-345; the SET
of the scalar node properties is carried by the presence of the id in the
store slice. -/
def mergeMemoryNode (g : GraphDB) (memory : BatchMemory) : GraphDB :=
  if memory.id ∈ g.memoryIds then g
  else { g with memoryIds := g.memoryIds ++ [memory.id] }

/-- The author subquery of one row, neo4j_memory.py lines 347-354: MERGE an
Author node and an AUTHORED_BY link per author. -/
def mergeAuthors (g : GraphDB) (memory : BatchMemory) : GraphDB :=
  memory.authors.foldl (fun g a =>
    if (memory.id, a) ∈ g.authored then g
    else { g with authored := g.authored ++ [(memory.id, a)] }) g

/-- The source subquery of one row, neo4j_memory.py lines 356-363. -/
def mergeSource (g : GraphDB) (memory : BatchMemory) : GraphDB :=
  match memory.source with
  | some s =>
    if (memory.id, s) ∈ g.sourced then g
    else { g with sourced := g.sourced ++ [(memory.id, s)] }
  | none => g

/-- The Storage counter update of one row, neo4j_memory.py lines 366-369. -/
def addStorageCount (g : GraphDB) (memory : BatchMemory) : GraphDB :=
  { g with storageTotal := g.storageTotal + memory.entities.length }

/-- The MENTIONS upserts of one row, neo4j_memory.py lines 372-380. -/
def upsertMentions (g : GraphDB) (memory : BatchMemory) : GraphDB :=
  memory.entities.foldl (fun g ed => upsertMention g memory.id ed.1 ed.2) g

/-- The gated co-mention subquery of one row over the collected entity
nodes, neo4j_memory.py lines 388-402. -/
def runCoMentions (g : GraphDB) (memory : BatchMemory) : GraphDB :=
  (entityPairs (memory.entities.map Prod.fst)).foldl (coMentionStep memory.id) g

/-- The cleanup of one row, neo4j_memory.py lines 411-414: REMOVE men.isNew
on the MENTIONS edges from this memory to its entities. -/
def clearIsNew (g : GraphDB) (memory : BatchMemory) : GraphDB :=
  { g with mentions := g.mentions.map (fun e =>
      if e.mem == memory.id && (memory.entities.map Prod.fst).contains e.ent then
        { e with isNew := false }
      else e) }

/-- Processing of one UNWIND row of _add_memory_batch, neo4j_memory.py lines
329-419: node MERGE, author and source links, Storage counter, MENTIONS
upserts flagging the newly created edges, gated co-mention increments, and
the isNew cleanup, in statement order. -/
def addMemoryRow (g : GraphDB) (memory : BatchMemory) : GraphDB :=
  clearIsNew
    (runCoMentions
      (upsertMentions
        (addStorageCount
          (mergeSource (mergeAuthors (mergeMemoryNode g memory) memory) memory)
          memory)
        memory)
      memory)
    memory

/-- Neo4jMemory._add_memory_batch, neo4j_memory.py lines 312-427: the UNWIND
processes the batch row by row, each row completing its subqueries (and in
particular its isNew cleanup) before the next row starts. -/
def addMemoryBatch (g : GraphDB) (memories : List BatchMemory) : GraphDB :=
  memories.foldl addMemoryRow g

/-- The MENTIONED_WITH coMentionCount of an ordered pair key, 0 when the
edge does not exist. -/
def coCount (g : GraphDB) (p : String × String) : Nat :=
  countOf g.coMentions p

/-- Undirected neighbor lookup over any relationship type, as
apoc.path.expandConfig with no relationshipFilter expands along every
relationship in both directions (neo4j_memory.py lines 847-852). -/
def neighborsOf (edges : List (String × String)) (n : String) : List String :=
  edges.filterMap (fun e =>
    if e.1 == n then some e.2 else if e.2 == n then some e.1 else none)

/-- The nodes newly discovered from a frontier, in discovery order, skipping
nodes already visited: the NODE_GLOBAL uniqueness of the path expander. -/
def newFrontier (edges : List (String × String)) (frontier visited : List String) :
    List String :=
  (frontier.flatMap (neighborsOf edges)).foldl
    (fun acc n => if visited.contains n || acc.contains n then acc else acc ++ [n]) []

/-- Level-by-level breadth-first expansion for the remaining depth budget,
yielding each newly discovered node with its discovery depth. -/
def bfsAux (edges : List (String × String)) :
    Nat → List String → List String → Nat → List (String × Nat)
  | 0, _, _, _ => []
  | fuel + 1, frontier, visited, depth =>
    let nf := newFrontier edges frontier visited
    nf.map (fun n => (n, depth + 1)) ++ bfsAux edges fuel nf (visited ++ nf) (depth + 1)

/-- The rows of apoc.path.expandConfig(start, maxLevel, bfs: true,
uniqueness: NODE_GLOBAL) reduced to (end node, path length): the start node
at depth 0, and every other reachable node once at its breadth-first
discovery depth, up to maxDepth, in depth order. -/
def bfsNodes (edges : List (String × String)) (origin : String) (maxDepth : Nat) :
    List (String × Nat) :=
  (origin, 0) :: bfsAux edges maxDepth [origin] [origin] 0

/-- The score 1 / max(depth, 0.5) of a returned row, neo4j_memory.py
line 874. -/
def traversalScore (depth : Nat) : ℚ := 1 / max (depth : ℚ) (1 / 2)

/-- Neo4jMemory._deep_relationship_traversal, neo4j_memory.py lines 841-874:
breadth-first expansion from the origin, keep end nodes that are not the
origin and not blacklisted, order by depth (the BFS rows already are),
LIMIT stop_k, and score each row 1/max(depth, 0.5).  The blacklist is
applied only in this result filter: the expandConfig call passes no
blacklistNodes option, so the expansion itself continues through
blacklisted nodes. -/
def deepRelationshipTraversal (edges : List (String × String)) (originId : String)
    (maxDepth stopK : Nat) (blacklist : List String) : List (String × ℚ) :=
  (((bfsNodes edges originId maxDepth).filter
      (fun p => p.1 != originId && !(blacklist.contains p.1))).take stopK).map
    (fun p => (p.1, traversalScore p.2))

/-- A stored memory as _query_memories_by_entities sees it: its id, the
names of the entities it mentions (one MENTIONS edge per distinct entity
name), and its last_access timestamp. -/
structure EMem where
  id : String
  entities : List String
  lastAccess : Int
deriving DecidableEq, Repr

/-- The diversity score of a candidate memory for a primary entity: the
COUNT subquery of neo4j_memory.py lines 618-621, counting the mentioned
entities that are among the queried names and differ from the primary. -/
def diversityScore (entityNames : List String) (primary : String) (m : EMem) : Nat :=
  (m.entities.filter (fun e => entityNames.contains e && e != primary)).length

/-- The ORDER BY diversity_score DESC, m.last_access DESC ranking of
neo4j_memory.py line 625, as a total preorder on scored candidates. -/
def rankLE (a b : EMem × Nat) : Prop :=
  b.2 < a.2 ∨ (b.2 = a.2 ∧ b.1.lastAccess ≤ a.1.lastAccess)

instance : DecidableRel rankLE := fun a b => by
  unfold rankLE
  infer_instance

instance : IsTotal (EMem × Nat) rankLE :=
  ⟨by
    intro a b
    unfold rankLE
    omega⟩

instance : IsTrans (EMem × Nat) rankLE :=
  ⟨by
    intro a b c
    unfold rankLE
    omega⟩

/-- The ranked candidate group of one primary entity, neo4j_memory.py lines
610-628: every memory mentioning the primary entity, paired with its
diversity score, ordered by the ORDER BY relation (a stable insertion sort
models the emitted row order). -/
def entityCandidates (store : List EMem) (entityNames : List String) (primary : String) :
    List (EMem × Nat) :=
  List.insertionSort rankLE
    ((store.filter (fun m => m.entities.contains primary)).map
      (fun m => (m, diversityScore entityNames primary m)))

/-- Neo4jMemory._query_memories_by_entities, neo4j_memory.py lines 603-653:
one group per distinct queried entity (the Python result dict is keyed by
primary_name), each holding the top limit ranked candidates (the slice
ranked_memories[0..top_n] keeps the first top_n rows). -/
def queryMemoriesByEntities (store : List EMem) (entityNames : List String) (limit : Nat) :
    List (String × List (EMem × Nat)) :=
  entityNames.dedup.map (fun primary =>
    (primary, (entityCandidates store entityNames primary).take limit))

/-- Concrete store for the entity-diversity ranking example: M1 mentions A
and B, M2 mentions only A, M3 mentions A, B and C. -/
def exampleEntityStore : List EMem :=
  [⟨"M1", ["A", "B"], 10⟩, ⟨"M2", ["A"], 30⟩, ⟨"M3", ["A", "B", "C"], 20⟩]

/-! ## Retrieval results and the purge policy
(src/src/dma/core/retrieval_results.py)

QueryResult equality is by (result, query) and Query equality by query_id,
so a result is modelled by its text (as a character list), the id of its
query, its score and its source.  The claims concern ranked stores, where
every stored result carries a numeric score; the is_ranked / rank_results
preamble of top_k, which would invoke the external aiko ranker on an
unranked store, is therefore outside the model and the score is a plain
rational (0 standing for the score the source leaves as None on freshly
chunked parts). -/

/-- A stored query result, retrieval_results.py lines 92-134. -/
structure QueryRes where
  result : List Char
  queryId : String
  score : ℚ := 0
  source : Option String := none
deriving DecidableEq, Repr

/-- The chunk start offsets range(0, len(text), chunk_size - overlap) of
chunk_text, src/src/dma/utils/text_formatting.py line 63. -/
def chunkStarts (n step : Nat) : List Nat :=
  (List.range ((n + step - 1) / step)).map (fun i => i * step)

/-- chunk_text, text_formatting.py lines 40-70: chunks of chunk_size
characters starting every chunk_size - overlap characters, a "..." prefix
on every chunk but the first, a "..." suffix on every chunk that does not
reach the end, each paired with its range label. -/
def chunkText (text : List Char) (chunkSize overlap : Nat) : List (List Char × String) :=
  (chunkStarts text.length (chunkSize - overlap)).map (fun i =>
    let chunk := (text.drop i).take chunkSize
    let chunk := if 0 < i then ['.', '.', '.'] ++ chunk else chunk
    let chunk := if i + chunkSize < text.length then chunk ++ ['.', '.', '.'] else chunk
    (chunk, "[" ++ toString i ++ ":" ++ toString (i + chunkSize) ++ "]"))

/-- QueryResult.chunk_result, retrieval_results.py lines 192-203: texts not
longer than chunk_size stay whole; longer texts are chunked, each part
keeping the query and carrying the chunk range label as its source, with no
score yet. -/
def chunkResult (r : QueryRes) (chunkSize overlap : Nat) : List QueryRes :=
  if r.result.length ≤ chunkSize then [r]
  else (chunkText r.result chunkSize overlap).map (fun c =>
    { result := c.1, queryId := r.queryId, score := 0, source := some c.2 })

/-- Insertion into the results dict keyed by query_id,
retrieval_results.py lines 259-262: append to the existing entry of the
query or create a new one. -/
def dictAdd : List (String × List QueryRes) → QueryRes → List (String × List QueryRes)
  | [], r => [(r.queryId, [r])]
  | p :: ps, r =>
    if p.1 == r.queryId then (p.1, p.2 ++ [r]) :: ps else p :: dictAdd ps r

/-- The results store: the insertion-ordered dict query_id to results, and
the _sources dict keys (which no code path of the class ever populates, so
the duplicate-source check never fires). -/
structure RetrievalResults where
  results : List (String × List QueryRes) := []
  sources : List (Option String) := []
deriving Repr

/-- RetrievalResults.add_result, retrieval_results.py lines 235-262: skip a
result whose source is among the recorded sources (never, as _sources stays
empty), chunk a result longer than 1600 characters with chunk_result(1500,
500) and insert every part (each part is at most 3 + 1500 + 3 characters,
below the 1600 threshold, so the recursive call of the source on a part
always takes the plain insert branch, inlined here), and otherwise insert
into the dict. -/
def addResult (rr : RetrievalResults) (r : QueryRes) : RetrievalResults :=
  if rr.sources.contains r.source then rr
  else if 1600 < r.result.length then
    (chunkResult r 1500 500).foldl
      (fun rr p =>
        if rr.sources.contains p.source then rr
        else { rr with results := dictAdd rr.results p })
      rr
  else { rr with results := dictAdd rr.results r }

/-- The ORDER of results.sort(key=score, reverse=True): scores
descending. -/
def scoreDescLE (a b : QueryRes) : Prop := b.score ≤ a.score

instance : DecidableRel scoreDescLE := fun a b => by
  unfold scoreDescLE
  infer_instance

instance : IsTotal QueryRes scoreDescLE :=
  ⟨by
    intro a b
    unfold scoreDescLE
    exact le_total b.score a.score⟩

instance : IsTrans QueryRes scoreDescLE :=
  ⟨by
    intro a b c
    unfold scoreDescLE
    intro h1 h2
    exact le_trans h2 h1⟩

/-- One iteration of the min_query_results guarantee loop of top_k,
retrieval_results.py lines 382-390, over the state (included_queries,
results, remaining): the first min_query_results results of each query (in
sorted order) go to results, the rest to remaining. -/
def topKStep (minQueryResults : Nat)
    (st : List (String × Nat) × List QueryRes × List QueryRes) (r : QueryRes) :
    List (String × Nat) × List QueryRes × List QueryRes :=
  match st.1.find? (fun p => p.1 == r.queryId) with
  | none => (st.1 ++ [(r.queryId, 1)], st.2.1 ++ [r], st.2.2)
  | some p =>
    if p.2 < minQueryResults then
      (bumpCounter st.1 r.queryId, st.2.1 ++ [r], st.2.2)
    else (st.1, st.2.1, st.2.2 ++ [r])

/-- RetrievalResults.top_k, retrieval_results.py lines 329-406, on a ranked
store.  With a query: its entry sorted by score descending, truncated to k.
Without: all results sorted by score descending; under a cap k with
positive min_query_results, the guarantee loop first secures the top
min_query_results per query, then fills up to k from the remaining results
and re-sorts; a cap with min_query_results 0 plainly truncates.  A
min_score finally filters the outcome as a hard floor. -/
def topK (rr : RetrievalResults) (k : Option Nat) (minScore : Option ℚ)
    (query : Option String) (minQueryResults : Nat) : List QueryRes :=
  let results :=
    match query with
    | some qid =>
      match rr.results.find? (fun p => p.1 == qid) with
      | some entry =>
        let sorted := List.insertionSort scoreDescLE entry.2
        match k with
        | some kv => sorted.take kv
        | none => sorted
      | none => []
    | none =>
      let allResults := rr.results.flatMap (fun p => p.2)
      let sorted := List.insertionSort scoreDescLE allResults
      match k with
      | some kv =>
        if 0 < minQueryResults then
          let st := sorted.foldl (topKStep minQueryResults) ([], [], [])
          if st.2.1.length < kv then
            List.insertionSort scoreDescLE
              (st.2.1 ++ st.2.2.take (kv - st.2.1.length))
          else st.2.1
        else sorted.take kv
      | none => sorted
  match minScore with
  | some ms => results.filter (fun r => ms ≤ r.score)
  | none => results

/-- RetrievalResults.purge, retrieval_results.py lines 308-326: keep the
top_k survivors (global ranking, min_score floor, per-query guarantee),
reset the store and re-add every survivor. -/
def purge (rr : RetrievalResults) (minScore : ℚ) (maxResults : Option Nat)
    (minQueryResults : Nat) : RetrievalResults :=
  (topK rr maxResults (some minScore) none minQueryResults).foldl addResult ⟨[], []⟩

/-- Concrete ranked store for the purge witness: query q1 holds results
scored 5 and 3, query q2 one result scored 4. -/
def examplePurgeStore : RetrievalResults :=
  { results := [("q1", [⟨[], "q1", 5, none⟩, ⟨[], "q1", 3, none⟩]),
                ("q2", [⟨[], "q2", 4, none⟩])] }

/-- The result list built by top_k before the min_score filter when no
query is given (retrieval_results.py lines 358-396): definitionally the
query-is-None branch of topK, named so the branch structure can be split
on. -/
def topKBase (rr : RetrievalResults) (k : Option Nat) (minQueryResults : Nat) :
    List QueryRes :=
  let allResults := rr.results.flatMap (fun p => p.2)
  let sorted := List.insertionSort scoreDescLE allResults
  match k with
  | some kv =>
    if 0 < minQueryResults then
      let st := sorted.foldl (topKStep minQueryResults) ([], [], [])
      if st.2.1.length < kv then
        List.insertionSort scoreDescLE (st.2.1 ++ st.2.2.take (kv - st.2.1.length))
      else st.2.1
    else sorted.take kv
  | none => sorted

/-- The results belonging to one query inside a result list. -/
def queryFilter (q : String) (l : List QueryRes) : List QueryRes :=
  l.filter (fun r => r.queryId == q)

/-- Invariant of the guarantee loop of top_k over the processed prefix pre:
per query, the counter equals the number of its processed results capped at
min_query_results, a counter entry exists exactly when some result of the
query was processed, the kept results are the first min_query_results
results of the query and the remaining list holds the rest, in order. -/
def topKInv (minQ : Nat) (pre : List QueryRes)
    (st : List (String × Nat) × List QueryRes × List QueryRes) : Prop :=
  ∀ q : String,
    countOf st.1 q = min (queryFilter q pre).length minQ ∧
    (st.1.find? (fun p => p.1 == q)).isSome = decide (0 < (queryFilter q pre).length) ∧
    queryFilter q st.2.1 = (queryFilter q pre).take minQ ∧
    queryFilter q st.2.2 = (queryFilter q pre).drop minQ

/-! ## Theorems -/

theorem TimeRelevance.halfTime_pos (tr : TimeRelevance) : 0 < tr.halfTime := by
  cases tr <;> norm_num [TimeRelevance.halfTime]

theorem TimeRelevance.decayRate_pos (tr : TimeRelevance) : 0 < Real.log 2 / tr.halfTime :=
  div_pos (Real.log_pos one_lt_two) tr.halfTime_pos

theorem TimeRelevance.exp_decay_antitone (tr : TimeRelevance) {t1 t2 : ℝ} (h : t1 ≤ t2) :
    Real.exp (-(Real.log 2 / tr.halfTime) * (t2 / 86400)) ≤
      Real.exp (-(Real.log 2 / tr.halfTime) * (t1 / 86400)) := by
  apply Real.exp_le_exp.2
  have hr := tr.decayRate_pos
  nlinarith

theorem TimeRelevance.ofValue_value (tr : TimeRelevance) : TimeRelevance.ofValue tr.value = tr := by
  cases tr <;> rfl

/-- C6: for every TimeRelevance kind and every nonnegative value, timeDecay is
monotonically non-increasing in the elapsed time; for ALWAYS the decayed value
never drops below 0.8 times the value; for UNKNOWN the result is the flat
multiplier 0.9 times the value, independent of the elapsed time. -/
theorem timeDecay_monotone_floor_flat :
    (∀ (tr : TimeRelevance) (v t1 t2 : ℝ), 0 ≤ v → t1 < t2 →
      tr.timeDecay v t2 ≤ tr.timeDecay v t1) ∧
    (∀ (v t : ℝ), 0 ≤ v → 0.8 * v ≤ TimeRelevance.ALWAYS.timeDecay v t) ∧
    (∀ (v t : ℝ), TimeRelevance.UNKNOWN.timeDecay v t = 0.9 * v) := by
  refine ⟨?_, ?_, ?_⟩
  · intro tr v t1 t2 hv h
    have hexp := tr.exp_decay_antitone h.le
    cases tr <;>
      simp only [TimeRelevance.timeDecay, TimeRelevance.halfTime, reduceCtorEq,
        reduceIte] at hexp ⊢ <;>
      nlinarith [hexp, hv, mul_le_mul_of_nonneg_left hexp hv]
  · intro v t hv
    have hexp : 0 < Real.exp (-(Real.log 2 / TimeRelevance.ALWAYS.halfTime) * (t / 86400)) :=
      Real.exp_pos _
    simp only [TimeRelevance.timeDecay, reduceCtorEq, reduceIte] at hexp ⊢
    nlinarith
  · intro v t
    simp only [TimeRelevance.timeDecay, reduceIte, unknownMultiplier]

/-- C10: queryRelevance applies the timeDecay of the lower-severity (more
time-sensitive) of the two relevance kinds to the absolute time difference
of the query time and the memory time, and whenever either side is
UNKNOWN the result is 0.9 times the value regardless of the times. -/
theorem queryRelevance_min_severity :
    (∀ (q m : TimeRelevance) (qt mt v : ℝ), q.value ≤ m.value →
      TimeRelevance.queryRelevance q qt m mt v = q.timeDecay v |qt - mt|) ∧
    (∀ (q m : TimeRelevance) (qt mt v : ℝ), m.value ≤ q.value →
      TimeRelevance.queryRelevance q qt m mt v = m.timeDecay v |qt - mt|) ∧
    (∀ (q m : TimeRelevance) (qt mt v : ℝ), q = .UNKNOWN ∨ m = .UNKNOWN →
      TimeRelevance.queryRelevance q qt m mt v = 0.9 * v) := by
  have flat : ∀ (v t : ℝ), TimeRelevance.UNKNOWN.timeDecay v t = 0.9 * v := by
    intro v t
    simp only [TimeRelevance.timeDecay, reduceIte, unknownMultiplier]
  refine ⟨?_, ?_, ?_⟩
  · intro q m qt mt v hle
    unfold TimeRelevance.queryRelevance
    rw [min_eq_left hle, TimeRelevance.ofValue_value]
  · intro q m qt mt v hle
    unfold TimeRelevance.queryRelevance
    rw [min_eq_right hle, TimeRelevance.ofValue_value]
  · intro q m qt mt v hun
    unfold TimeRelevance.queryRelevance
    rcases hun with hq | hm
    · rw [hq]
      simp only [TimeRelevance.value, Nat.zero_min, TimeRelevance.ofValue]
      exact flat v _
    · rw [hm]
      simp only [TimeRelevance.value, Nat.min_zero, TimeRelevance.ofValue]
      exact flat v _

theorem parseLoop_eq {α : Type} (memories : List α) (evals : List MemoryEvaluation)
    (acc : List α × List MemoryRelevance × List (List String)) :
    evals.foldl (parseEvalStep memories) acc =
      (acc.1 ++ evals.filterMap (fun e => lookupById memories e.memoryIdInt),
       acc.2.1 ++ evals.filterMap (fun e =>
         (lookupById memories e.memoryIdInt).map (fun _ => parseRelevance e.relevanceStr)),
       acc.2.2 ++ evals.filterMap (fun e =>
         (lookupById memories e.memoryIdInt).map
           (fun _ => e.memoryKeywordsList.map normalizeEntity))) := by
  induction evals generalizing acc with
  | nil => simp
  | cons e es ih =>
    rw [List.foldl_cons, ih]
    cases h : lookupById memories e.memoryIdInt <;>
      simp [parseEvalStep, h, List.filterMap_cons]

theorem lookupById_inj {α : Type} (memories : List α) (hnd : memories.Nodup)
    (i j : Int) (x : α) (hi : x ∈ lookupById memories i) (hj : x ∈ lookupById memories j) :
    i = j := by
  unfold lookupById at hi hj
  by_cases h1 : i - 1 < 0
  · simp [h1] at hi
  by_cases h2 : j - 1 < 0
  · simp [h2] at hj
  rw [if_neg h1, Option.mem_def] at hi
  rw [if_neg h2, Option.mem_def] at hj
  have hlen : (i - 1).toNat < memories.length := (List.getElem?_eq_some_iff.mp hi).1
  have := List.getElem?_inj hlen hnd (hi.trans hj.symm)
  omega

theorem lookupById_mem {α : Type} (memories : List α) (i : Int) (x : α)
    (hi : lookupById memories i = some x) : x ∈ memories := by
  unfold lookupById at hi
  by_cases h1 : i - 1 < 0
  · simp [h1] at hi
  rw [if_neg h1] at hi
  exact List.getElem?_mem hi

theorem selectedMemories_nodup {α : Type} (memories : List α) (evals : List MemoryEvaluation)
    (hnd : memories.Nodup) (hids : (evals.map (fun e => e.memoryIdInt)).Nodup) :
    (evals.filterMap (fun e => lookupById memories e.memoryIdInt)).Nodup := by
  have heq : evals.filterMap (fun e => lookupById memories e.memoryIdInt)
      = (evals.map (fun e => e.memoryIdInt)).filterMap (lookupById memories) := by
    rw [List.filterMap_map]
    rfl
  rw [heq]
  exact List.Nodup.filterMap (fun i j x hi hj => lookupById_inj memories hnd i j x hi hj) hids

theorem selectedMemories_subset {α : Type} (memories : List α) (evals : List MemoryEvaluation) :
    (evals.filterMap (fun e => lookupById memories e.memoryIdInt)) ⊆ memories := by
  intro x hx
  rcases List.mem_filterMap.mp hx with ⟨e, _, he⟩
  exact lookupById_mem memories e.memoryIdInt x he

theorem filterMap_optionMap_length {α β γ : Type} (f : α → Option β) (g : α → β → γ)
    (l : List α) :
    (l.filterMap (fun e => (f e).map (g e))).length = (l.filterMap f).length := by
  induction l with
  | nil => rfl
  | cons e es ih => cases h : f e <;> simp [List.filterMap_cons, h, ih]

theorem backfill_len {α : Type} [DecidableEq α] (ms : List α)
    (acc : List α × List MemoryRelevance × List (List String))
    (hl : acc.2.1.length = acc.1.length) :
    (ms.foldl backfillStep acc).2.1.length = (ms.foldl backfillStep acc).1.length := by
  induction ms generalizing acc with
  | nil => exact hl
  | cons m ms ih =>
    rw [List.foldl_cons]
    apply ih
    unfold backfillStep
    split
    · exact hl
    · simp [hl]

theorem backfill_sub_mono {α : Type} [DecidableEq α] (ms : List α)
    (acc : List α × List MemoryRelevance × List (List String)) :
    acc.1 ⊆ (ms.foldl backfillStep acc).1 := by
  induction ms generalizing acc with
  | nil => exact fun x hx => hx
  | cons m ms ih =>
    rw [List.foldl_cons]
    intro x hx
    apply ih
    unfold backfillStep
    split
    · exact hx
    · simp [hx]

theorem backfill_mem_all {α : Type} [DecidableEq α] (ms : List α)
    (acc : List α × List MemoryRelevance × List (List String)) :
    ∀ x ∈ ms, x ∈ (ms.foldl backfillStep acc).1 := by
  induction ms generalizing acc with
  | nil => intro x hx; cases hx
  | cons m ms ih =>
    intro x hx
    rw [List.foldl_cons]
    rcases List.mem_cons.mp hx with rfl | hx
    · apply backfill_sub_mono
      unfold backfillStep
      split
      · assumption
      · simp
    · exact ih _ x hx

theorem backfill_mem_src {α : Type} [DecidableEq α] (ms : List α)
    (acc : List α × List MemoryRelevance × List (List String)) :
    ∀ x ∈ (ms.foldl backfillStep acc).1, x ∈ acc.1 ∨ x ∈ ms := by
  induction ms generalizing acc with
  | nil => exact fun x hx => Or.inl hx
  | cons m ms ih =>
    intro x hx
    rw [List.foldl_cons] at hx
    rcases ih _ x hx with hx' | hx'
    · unfold backfillStep at hx'
      split at hx'
      · exact Or.inl hx'
      · rcases List.mem_append.mp hx' with h | h
        · exact Or.inl h
        · simp at h
          exact Or.inr (by simp [h])
    · exact Or.inr (List.mem_cons_of_mem m hx')

theorem backfill_nodup {α : Type} [DecidableEq α] (ms : List α)
    (acc : List α × List MemoryRelevance × List (List String))
    (hnd : acc.1.Nodup) :
    (ms.foldl backfillStep acc).1.Nodup := by
  induction ms generalizing acc with
  | nil => exact hnd
  | cons m ms ih =>
    rw [List.foldl_cons]
    apply ih
    unfold backfillStep
    split
    next => exact hnd
    next h => simp [List.nodup_append, hnd, h]

theorem backfill_zip_mono {α : Type} [DecidableEq α] (ms : List α)
    (acc : List α × List MemoryRelevance × List (List String))
    (hl : acc.2.1.length = acc.1.length) :
    ∀ p ∈ acc.1.zip acc.2.1,
      p ∈ (ms.foldl backfillStep acc).1.zip (ms.foldl backfillStep acc).2.1 := by
  induction ms generalizing acc with
  | nil => exact fun p hp => hp
  | cons m ms ih =>
    intro p hp
    rw [List.foldl_cons]
    have hl' : (backfillStep acc m).2.1.length = (backfillStep acc m).1.length := by
      unfold backfillStep
      split
      · exact hl
      · simp [hl]
    apply ih _ hl'
    unfold backfillStep
    split
    · exact hp
    · rw [List.zip_append hl.symm]
      exact List.mem_append_left _ hp

theorem backfill_zip_unknown {α : Type} [DecidableEq α] (ms : List α)
    (acc : List α × List MemoryRelevance × List (List String))
    (hl : acc.2.1.length = acc.1.length) (hnd : ms.Nodup) :
    ∀ x ∈ ms, x ∉ acc.1 →
      (x, MemoryRelevance.UNKNOWN) ∈
        (ms.foldl backfillStep acc).1.zip (ms.foldl backfillStep acc).2.1 := by
  induction ms generalizing acc with
  | nil => intro x hx; cases hx
  | cons m ms ih =>
    intro x hx hxa
    rw [List.foldl_cons]
    have hl' : (backfillStep acc m).2.1.length = (backfillStep acc m).1.length := by
      unfold backfillStep
      split
      · exact hl
      · simp [hl]
    rcases List.mem_cons.mp hx with rfl | hx'
    · apply backfill_zip_mono _ _ hl'
      unfold backfillStep
      rw [if_neg hxa, List.zip_append hl.symm]
      apply List.mem_append_right
      simp
    · apply ih _ hl'
      · exact hnd.of_cons
      · exact hx'
      · unfold backfillStep
        split
        · exact hxa
        · intro hmem
          rcases List.mem_append.mp hmem with h | h
          · exact hxa h
          · simp at h
            subst h
            exact (List.nodup_cons.mp hnd).1 hx'

/-- C1 counterexample: with the two distinct input memories A and B and a
generator result whose evaluations rate memory id 1 twice, the parsed
memories list is A twice: it has the length of the input but not its
membership, B is dropped and A is rated twice, refuting the claim for
results that repeat a memory id. -/
theorem parseEvaluationResult_duplicate_id_cex :
    (parseEvaluationResult dupIdResult ["A", "B"]).memories = ["A", "A"] ∧
    "B" ∈ (["A", "B"] : List String) ∧
    "B" ∉ (parseEvaluationResult dupIdResult ["A", "B"]).memories := by
  decide

/-- C1 (amended): provided the input memories are pairwise distinct and the
generator result references pairwise distinct memory ids, the parsed
Evaluation has exactly the length and membership of the input memories
list (a permutation, so every input memory carries exactly one rating),
with out-of-range ids dropped and memories absent from the generator
output backfilled with UNKNOWN relevance. -/
theorem parseEvaluationResult_complete {α : Type} [DecidableEq α]
    (result : EvaluationResult) (memories : List α)
    (hnd : memories.Nodup)
    (hids : (result.evaluationsList.map (fun e => e.memoryIdInt)).Nodup) :
    (parseEvaluationResult result memories).memories.Perm memories ∧
    (parseEvaluationResult result memories).ratings.length = memories.length ∧
    ∀ mem ∈ memories,
      (∀ e ∈ result.evaluationsList, lookupById memories e.memoryIdInt ≠ some mem) →
      (mem, MemoryRelevance.UNKNOWN) ∈
        (parseEvaluationResult result memories).memories.zip
          (parseEvaluationResult result memories).ratings := by
  have hmem : (parseEvaluationResult result memories).memories =
      (parsedTriple result memories).1 := rfl
  have hrat : (parseEvaluationResult result memories).ratings =
      (parsedTriple result memories).2.1 := rfl
  set L := result.evaluationsList.filterMap
    (fun e => lookupById memories e.memoryIdInt) with hL
  set R := result.evaluationsList.filterMap
    (fun e => (lookupById memories e.memoryIdInt).map
      (fun _ => parseRelevance e.relevanceStr)) with hR
  set K := result.evaluationsList.filterMap (fun e =>
    (lookupById memories e.memoryIdInt).map
      (fun _ => e.memoryKeywordsList.map normalizeEntity)) with hK
  have hloop : result.evaluationsList.foldl (parseEvalStep memories)
      ([], [], []) = (L, R, K) := by
    rw [parseLoop_eq]
    simp
  have htrip : parsedTriple result memories =
      if L.length ≠ memories.length then
        memories.foldl backfillStep (L, R, K)
      else (L, R, K) := by
    unfold parsedTriple
    rw [hloop]
  have hLnd : L.Nodup := selectedMemories_nodup memories _ hnd hids
  have hLsub : L ⊆ memories := selectedMemories_subset memories _
  have hRL : R.length = L.length := filterMap_optionMap_length _ _ _
  have hLmem : ∀ x, x ∈ L ↔ ∃ e ∈ result.evaluationsList,
      lookupById memories e.memoryIdInt = some x := by
    intro x
    rw [hL, List.mem_filterMap]
  rw [hmem, hrat, htrip]
  split
  case isTrue hne =>
    -- the backfill loop runs
    have hnd' : (memories.foldl backfillStep (L, R, K)).1.Nodup :=
      backfill_nodup _ _ hLnd
    have hsub : (memories.foldl backfillStep (L, R, K)).1 ⊆ memories := by
      intro x hx
      rcases backfill_mem_src _ _ x hx with h | h
      · exact hLsub h
      · exact h
    have hsup : memories ⊆ (memories.foldl backfillStep (L, R, K)).1 := by
      intro x hx
      exact backfill_mem_all _ _ x hx
    have hperm : (memories.foldl backfillStep (L, R, K)).1.Perm memories :=
      (hnd'.subperm hsub).antisymm (hnd.subperm hsup)
    refine ⟨hperm, ?_, ?_⟩
    · rw [backfill_len _ _ hRL, hperm.length_eq]
    · intro mem hm hnone
      apply backfill_zip_unknown _ _ hRL hnd mem hm
      intro hmemL
      rcases (hLmem mem).mp hmemL with ⟨e, he, hx⟩
      exact hnone e he hx
  case isFalse hne =>
    have hlen : L.length = memories.length := by
      by_contra h
      exact hne h
    have hperm : L.Perm memories :=
      (hLnd.subperm hLsub).perm_of_length_le (le_of_eq hlen.symm)
    refine ⟨hperm, by rw [hRL, hlen], ?_⟩
    intro mem hm hnone
    exfalso
    have : mem ∈ L := hperm.symm.subset hm
    rcases (hLmem mem).mp this with ⟨e, he, hx⟩
    exact hnone e he hx

/-- C1 witness for the amended theorem: two distinct memories, a result
that rates memory 1 and references the out-of-range id 5, applied to the
amended completeness theorem. -/
theorem parseEvaluationResult_complete_witness :
    (parseEvaluationResult partialEvalResult ["A", "B"]).memories.Perm ["A", "B"] ∧
    (parseEvaluationResult partialEvalResult ["A", "B"]).ratings.length =
      (["A", "B"] : List String).length ∧
    ∀ mem ∈ (["A", "B"] : List String),
      (∀ e ∈ partialEvalResult.evaluationsList,
        lookupById ["A", "B"] e.memoryIdInt ≠ some mem) →
      (mem, MemoryRelevance.UNKNOWN) ∈
        (parseEvaluationResult partialEvalResult ["A", "B"]).memories.zip
          (parseEvaluationResult partialEvalResult ["A", "B"]).ratings :=
  parseEvaluationResult_complete partialEvalResult ["A", "B"] (by decide) (by decide)

theorem addStep_fields (r : Retrieval) (s : RetrievalStep) :
    (r.addStep s).steps = r.steps ++ [s] ∧
    (r.addStep s).currentIteration = r.currentIteration + 1 ∧
    (r.addStep s).maxIterations = r.maxIterations ∧
    (r.addStep s).satisfactory = r.satisfactory ∧
    (r.addStep s).done = (r.done || decide (r.maxIterations ≤ r.currentIteration + 1)) := by
  unfold Retrieval.addStep
  dsimp only
  split <;> simp_all

theorem queryAttemptLoop_stop (outcomes : Nat → Option RetrievalStep) (a : Nat)
    (h : ¬ a < maxAttempts) : queryAttemptLoop outcomes a = none := by
  unfold queryAttemptLoop
  simp [h]

theorem queryAttemptLoop_succ_some (outcomes : Nat → Option RetrievalStep) (a : Nat)
    (h : a < maxAttempts) (step : RetrievalStep) (ho : outcomes a = some step) :
    queryAttemptLoop outcomes a = some step := by
  unfold queryAttemptLoop
  simp [h, ho]

theorem queryAttemptLoop_succ_none (outcomes : Nat → Option RetrievalStep) (a : Nat)
    (h : a < maxAttempts) (ho : outcomes a = none) :
    queryAttemptLoop outcomes a = queryAttemptLoop outcomes (a + 1) := by
  conv_lhs => rw [queryAttemptLoop]
  simp [h, ho]

theorem generateQueries_preserves (outcomes : Nat → Option RetrievalStep) (r : Retrieval)
    (hdone : r.done = false)
    (h1 : r.currentIteration = r.steps.length)
    (h3 : r.currentIteration < r.maxIterations) :
    (generateQueries outcomes r).currentIteration =
      (generateQueries outcomes r).steps.length ∧
    (generateQueries outcomes r).currentIteration ≤
      (generateQueries outcomes r).maxIterations ∧
    ((generateQueries outcomes r).done = false →
      (generateQueries outcomes r).currentIteration <
        (generateQueries outcomes r).maxIterations) ∧
    (generateQueries outcomes r).maxIterations = r.maxIterations := by
  unfold generateQueries
  cases hq : queryAttemptLoop outcomes 0 with
  | none =>
    dsimp only
    refine ⟨h1, h3.le, ?_, rfl⟩
    intro h
    simp at h
  | some step =>
    dsimp only
    obtain ⟨e1, e2, e3, e4, e5⟩ := addStep_fields r step
    by_cases hq0 : step.queries.length = 0
    · rw [if_pos hq0]
      unfold Retrieval.markSatisfactory
      dsimp only
      refine ⟨?_, ?_, ?_, ?_⟩
      · rw [e2, e1, h1]
        simp
      · rw [e2, e3]
        omega
      · intro h
        simp at h
      · exact e3
    · rw [if_neg hq0]
      refine ⟨?_, ?_, ?_, ?_⟩
      · rw [e2, e1, h1]
        simp
      · rw [e2, e3]
        omega
      · rw [e2, e3, e5]
        intro h
        simp [hdone] at h
        omega
      · exact e3

theorem retrievalLoop_done (rounds : List (Nat → Option RetrievalStep)) (r : Retrieval)
    (h : r.done = true) : retrievalLoop rounds r = r := by
  induction rounds with
  | nil => rfl
  | cons o os ih =>
    unfold retrievalLoop at *
    rw [List.foldl_cons]
    simp only [h, if_true, reduceIte]
    exact ih

theorem retrievalLoop_steps_le (rounds : List (Nat → Option RetrievalStep)) (r : Retrieval)
    (h1 : r.currentIteration = r.steps.length)
    (h2 : r.currentIteration ≤ r.maxIterations)
    (h3 : r.done = false → r.currentIteration < r.maxIterations) :
    (retrievalLoop rounds r).steps.length ≤ r.maxIterations := by
  induction rounds generalizing r with
  | nil =>
    unfold retrievalLoop
    simp only [List.foldl_nil]
    omega
  | cons o os ih =>
    unfold retrievalLoop at *
    rw [List.foldl_cons]
    cases hdone : r.done with
    | true =>
      simp only [reduceIte]
      exact ih r h1 h2 h3
    | false =>
      simp only [Bool.false_eq_true, reduceIte]
      obtain ⟨p1, p2, p3, p4⟩ := generateQueries_preserves o r hdone h1 (h3 hdone)
      have := ih (generateQueries o r) p1 p2 p3
      rwa [p4] at this

/-- C5: after add_step the invariant current_iteration = len(steps) is
preserved, done is set exactly when the incremented iteration reaches
max_iterations, a fresh Retrieval with max_iterations 3 driven through
generate_queries rounds never accumulates more than 3 steps, and a first
round whose parsed step has zero queries marks the retrieval done and
satisfactory and makes every further round a no-op. -/
theorem retrieval_invariant_and_termination :
    (∀ (r : Retrieval) (s : RetrievalStep), r.currentIteration = r.steps.length →
      (r.addStep s).currentIteration = (r.addStep s).steps.length) ∧
    (∀ (r : Retrieval) (s : RetrievalStep),
      (r.addStep s).done = (r.done || decide (r.maxIterations ≤ r.currentIteration + 1))) ∧
    (∀ rounds : List (Nat → Option RetrievalStep),
      (retrievalLoop rounds freshRetrieval).steps.length ≤ 3) ∧
    (∀ (outcomes : Nat → Option RetrievalStep) (step : RetrievalStep)
      (rounds : List (Nat → Option RetrievalStep)),
      queryAttemptLoop outcomes 0 = some step → step.queries = [] →
      (generateQueries outcomes freshRetrieval).done = true ∧
      (generateQueries outcomes freshRetrieval).satisfactory = true ∧
      retrievalLoop rounds (generateQueries outcomes freshRetrieval) =
        generateQueries outcomes freshRetrieval) := by
  refine ⟨?_, ?_, ?_, ?_⟩
  · intro r s h
    obtain ⟨e1, e2, _, _, _⟩ := addStep_fields r s
    rw [e1, e2, h]
    simp
  · intro r s
    exact (addStep_fields r s).2.2.2.2
  · intro rounds
    have := retrievalLoop_steps_le rounds freshRetrieval rfl (by norm_num [freshRetrieval])
      (fun _ => by norm_num [freshRetrieval])
    simpa [freshRetrieval] using this
  · intro outcomes step rounds hq hempty
    have hgen : generateQueries outcomes freshRetrieval =
        (freshRetrieval.addStep step).markSatisfactory := by
      unfold generateQueries
      rw [hq]
      simp [hempty]
    have hdone : (generateQueries outcomes freshRetrieval).done = true := by
      rw [hgen]
      rfl
    refine ⟨hdone, by rw [hgen]; rfl, retrievalLoop_done rounds _ hdone⟩

/-- C9: when all three generation attempts fail to parse, generate_queries
sets done and clears satisfactory without adding a step, leaving steps and
current_iteration unchanged; when some attempt parses, the parsed step is
appended, the iteration advances, and satisfactory is only ever raised (set
when the step carries no queries), never cleared.  The third conjunct
identifies the retry loop with the first parsed outcome of the three
attempts. -/
theorem generateQueries_failure_and_success :
    (∀ (outcomes : Nat → Option RetrievalStep) (r : Retrieval),
      outcomes 0 = none → outcomes 1 = none → outcomes 2 = none →
      generateQueries outcomes r = { r with done := true, satisfactory := false }) ∧
    (∀ (outcomes : Nat → Option RetrievalStep) (r : Retrieval) (step : RetrievalStep),
      queryAttemptLoop outcomes 0 = some step →
      (generateQueries outcomes r).steps = r.steps ++ [step] ∧
      (generateQueries outcomes r).currentIteration = r.currentIteration + 1 ∧
      (generateQueries outcomes r).satisfactory =
        (r.satisfactory || step.queries.isEmpty)) ∧
    (∀ outcomes : Nat → Option RetrievalStep,
      queryAttemptLoop outcomes 0 =
        ((outcomes 0).orElse (fun _ => (outcomes 1).orElse (fun _ => outcomes 2)))) := by
  have hchar : ∀ outcomes : Nat → Option RetrievalStep,
      queryAttemptLoop outcomes 0 =
        ((outcomes 0).orElse (fun _ => (outcomes 1).orElse (fun _ => outcomes 2))) := by
    intro outcomes
    cases h0 : outcomes 0 with
    | some s => rw [queryAttemptLoop_succ_some outcomes 0 (by norm_num [maxAttempts]) s h0]; simp
    | none =>
      rw [queryAttemptLoop_succ_none outcomes 0 (by norm_num [maxAttempts]) h0]
      cases h1 : outcomes 1 with
      | some s =>
        rw [queryAttemptLoop_succ_some outcomes 1 (by norm_num [maxAttempts]) s h1]
        simp [h0]
      | none =>
        rw [queryAttemptLoop_succ_none outcomes 1 (by norm_num [maxAttempts]) h1]
        cases h2 : outcomes 2 with
        | some s =>
          rw [queryAttemptLoop_succ_some outcomes 2 (by norm_num [maxAttempts]) s h2]
          simp [h0, h1]
        | none =>
          rw [queryAttemptLoop_succ_none outcomes 2 (by norm_num [maxAttempts]) h2]
          rw [queryAttemptLoop_stop outcomes 3 (by norm_num [maxAttempts])]
          simp [h0, h1, h2]
  refine ⟨?_, ?_, hchar⟩
  · intro outcomes r h0 h1 h2
    have hq : queryAttemptLoop outcomes 0 = none := by
      rw [hchar]
      simp [h0, h1, h2]
    unfold generateQueries
    rw [hq]
  · intro outcomes r step hq
    obtain ⟨e1, e2, e3, e4, e5⟩ := addStep_fields r step
    unfold generateQueries
    rw [hq]
    dsimp only
    split
    case isTrue hempty =>
      unfold Retrieval.markSatisfactory
      refine ⟨by simp [e1], by simp [e2], ?_⟩
      have : step.queries.isEmpty = true := by
        simp [List.isEmpty_iff, List.length_eq_zero.mp hempty]
      simp [this]
    case isFalse hne =>
      refine ⟨e1, e2, ?_⟩
      have : step.queries.isEmpty = false := by
        simp [List.isEmpty_iff]
        intro h
        exact hne (by simp [h])
      simp [this, e4]

/-- C2: code-bug evidence.  At the failing input (one stored memory m1 with
all counters zero, updated with POSITIVE feedback) the executed statement
returns the id and updates last_access and total_access_count, but leaves
positive_access_count at 0, although the claim (and the repo test
tests/test_neo4j_memory.py line 125) expects it incremented to 1: the
feedback increment fragment is appended after the RETURN clause of the
Cypher statement and never executes as a SET item. -/
theorem updateMemoryAccess_positive_feedback_bug :
    (updateMemoryAccess [⟨"m1", 0, 0, 0, 0⟩] ["m1"] FeedbackType.POSITIVE 100).2 = ["m1"] ∧
    ((updateMemoryAccess [⟨"m1", 0, 0, 0, 0⟩] ["m1"] FeedbackType.POSITIVE 100).1.map
      (fun m => m.lastAccess)) = [100] ∧
    ((updateMemoryAccess [⟨"m1", 0, 0, 0, 0⟩] ["m1"] FeedbackType.POSITIVE 100).1.map
      (fun m => m.totalAccessCount)) = [1] ∧
    ((updateMemoryAccess [⟨"m1", 0, 0, 0, 0⟩] ["m1"] FeedbackType.POSITIVE 100).1.map
      (fun m => m.positiveAccessCount)) = [0] := by
  decide

theorem bumpCounter_get_self {κ : Type} [BEq κ] [LawfulBEq κ]
    (l : List (κ × Nat)) (key : κ) :
    countOf (bumpCounter l key) key = countOf l key + 1 := by
  induction l with
  | nil => simp [bumpCounter, countOf]
  | cons p ps ih =>
    by_cases hp : (p.1 == key) = true
    · simp [bumpCounter, countOf, hp]
    · simp only [bumpCounter, hp, Bool.false_eq_true, if_false, reduceIte]
      simp only [countOf, List.find?_cons, hp] at ih ⊢
      exact ih

theorem bumpCounter_get_other {κ : Type} [BEq κ] [LawfulBEq κ]
    (l : List (κ × Nat)) (key p : κ) (hne : p ≠ key) :
    countOf (bumpCounter l key) p = countOf l p := by
  induction l with
  | nil => simp [bumpCounter, countOf, beq_eq_false_iff_ne.mpr hne.symm]
  | cons q qs ih =>
    by_cases hq : (q.1 == key) = true
    · have hqk : q.1 = key := eq_of_beq hq
      have hqp : (q.1 == p) = false := by
        rw [hqk]
        exact beq_eq_false_iff_ne.mpr fun h => hne h.symm
      simp [bumpCounter, countOf, hq, List.find?_cons, hqp]
    · simp only [bumpCounter, hq, Bool.false_eq_true, if_false, reduceIte]
      simp only [countOf, List.find?_cons] at ih ⊢
      cases hqp : (q.1 == p) <;> simp [hqp, ih]

theorem coMentionStep_mentions (mid : String) (g : GraphDB) (q : String × String) :
    (coMentionStep mid g q).mentions = g.mentions := by
  unfold coMentionStep
  split
  · split <;> rfl
  · rfl

theorem coMentionStep_coCount_le (mid : String) (g : GraphDB) (q p : String × String) :
    coCount (coMentionStep mid g q) p ≤ coCount g p + (if q = p then 1 else 0) := by
  unfold coMentionStep
  split
  · split
    · by_cases hqp : q = p
      · subst hqp
        unfold coCount
        dsimp only
        rw [bumpCounter_get_self]
        simp
      · unfold coCount
        dsimp only
        rw [bumpCounter_get_other _ _ _ (fun h => hqp h.symm)]
        simp
    · simp
  · simp

theorem coMentionFold_mentions (mid : String) (pairs : List (String × String)) (g : GraphDB) :
    ((pairs.foldl (coMentionStep mid) g)).mentions = g.mentions := by
  induction pairs generalizing g with
  | nil => rfl
  | cons q qs ih =>
    rw [List.foldl_cons, ih, coMentionStep_mentions]

theorem coMentionFold_coCount_le (mid : String) (pairs : List (String × String))
    (g : GraphDB) (p : String × String) :
    coCount (pairs.foldl (coMentionStep mid) g) p ≤ coCount g p + pairs.count p := by
  induction pairs generalizing g with
  | nil => simp
  | cons q qs ih =>
    rw [List.foldl_cons]
    have h1 := ih (coMentionStep mid g q)
    have h2 := coMentionStep_coCount_le mid g q p
    by_cases hqp : q = p
    · subst hqp
      rw [List.count_cons_self]
      rw [if_pos rfl] at h2
      omega
    · rw [List.count_cons_of_ne (fun h => hqp h.symm)]
      rw [if_neg hqp] at h2
      omega

theorem entityPairs_mem (names : List String) (a b : String)
    (h : (a, b) ∈ entityPairs names) : a ∈ names ∧ b ∈ names := by
  rcases List.mem_flatMap.mp h with ⟨e1, he1, hin⟩
  rcases List.mem_filterMap.mp hin with ⟨e2, he2, heq⟩
  by_cases hlt : strLt e1 e2 = true
  · rw [if_pos hlt] at heq
    cases heq
    exact ⟨he1, he2⟩
  · rw [if_neg hlt] at heq
    cases heq

theorem filterMapPair_count_le (names : List String) (x a b : String) :
    (names.filterMap (fun e2 => if strLt x e2 then some (x, e2) else none)).count (a, b) ≤
      names.count b := by
  induction names with
  | nil => simp
  | cons y ys ih =>
    by_cases hlt : strLt x y = true
    · simp only [List.filterMap_cons, if_pos hlt]
      by_cases hab : (a, b) = (x, y)
      · rw [Prod.mk.injEq] at hab
        obtain ⟨rfl, rfl⟩ := hab
        rw [List.count_cons_self, List.count_cons_self]
        omega
      · rw [List.count_cons_of_ne hab]
        by_cases hby : b = y
        · subst hby
          rw [List.count_cons_self]
          omega
        · rw [List.count_cons_of_ne hby]
          exact ih
    · simp only [List.filterMap_cons, if_neg hlt]
      by_cases hby : b = y
      · subst hby
        rw [List.count_cons_self]
        omega
      · rw [List.count_cons_of_ne hby]
        exact ih

theorem pairsFlat_count_le (outer names : List String) (a b : String) :
    (outer.flatMap (fun e1 => names.filterMap
      (fun e2 => if strLt e1 e2 then some (e1, e2) else none))).count (a, b) ≤
      outer.count a * names.count b := by
  induction outer with
  | nil => simp
  | cons x xs ih =>
    rw [List.flatMap_cons, List.count_append]
    by_cases hx : x = a
    · subst hx
      have h1 := filterMapPair_count_le names x x b
      rw [List.count_cons_self, Nat.succ_mul]
      omega
    · have h0 : (names.filterMap
          (fun e2 => if strLt x e2 then some (x, e2) else none)).count (a, b) = 0 := by
        rw [List.count_eq_zero]
        intro hmem
        rcases List.mem_filterMap.mp hmem with ⟨e2, _, heq⟩
        by_cases hlt : strLt x e2 = true
        · rw [if_pos hlt] at heq
          cases heq
          exact hx rfl
        · rw [if_neg hlt] at heq
          cases heq
      rw [List.count_cons_of_ne (fun h => hx h.symm)]
      omega

theorem entityPairs_count_bound (names : List String) (hnd : names.Nodup)
    (a b : String) :
    (entityPairs names).count (a, b) ≤ if a ∈ names ∧ b ∈ names then 1 else 0 := by
  by_cases hm : a ∈ names ∧ b ∈ names
  · rw [if_pos hm]
    have h1 := pairsFlat_count_le names names a b
    have ha := List.nodup_iff_count_le_one.mp hnd (a, b).1
    have hb := List.nodup_iff_count_le_one.mp hnd (a, b).2
    have : names.count a * names.count b ≤ 1 := by
      have := Nat.mul_le_mul ha hb
      simpa using this
    unfold entityPairs
    omega
  · rw [if_neg hm]
    rw [Nat.le_zero, List.count_eq_zero]
    intro hmem
    exact hm (entityPairs_mem names a b hmem)

theorem mergeMemoryNode_parts (g : GraphDB) (m : BatchMemory) :
    (mergeMemoryNode g m).coMentions = g.coMentions ∧
    (mergeMemoryNode g m).mentions = g.mentions := by
  unfold mergeMemoryNode
  split <;> exact ⟨rfl, rfl⟩

theorem mergeAuthors_parts (g : GraphDB) (m : BatchMemory) :
    (mergeAuthors g m).coMentions = g.coMentions ∧
    (mergeAuthors g m).mentions = g.mentions := by
  unfold mergeAuthors
  induction m.authors generalizing g with
  | nil => exact ⟨rfl, rfl⟩
  | cons a as ih =>
    rw [List.foldl_cons]
    rcases ih (if (m.id, a) ∈ g.authored then g
      else { g with authored := g.authored ++ [(m.id, a)] }) with ⟨h1, h2⟩
    constructor
    · rw [h1]
      split <;> rfl
    · rw [h2]
      split <;> rfl

theorem mergeSource_parts (g : GraphDB) (m : BatchMemory) :
    (mergeSource g m).coMentions = g.coMentions ∧
    (mergeSource g m).mentions = g.mentions := by
  unfold mergeSource
  split
  · split <;> exact ⟨rfl, rfl⟩
  · exact ⟨rfl, rfl⟩

theorem upsertMention_coMentions (g : GraphDB) (a b : String) (c : Nat) :
    (upsertMention g a b c).coMentions = g.coMentions := by
  unfold upsertMention
  split <;> rfl

theorem upsertMentions_coMentions (g : GraphDB) (m : BatchMemory) :
    (upsertMentions g m).coMentions = g.coMentions := by
  unfold upsertMentions
  induction m.entities generalizing g with
  | nil => rfl
  | cons ed eds ih =>
    rw [List.foldl_cons, ih, upsertMention_coMentions]

/-- URow abbreviation: all co-mention counters are invisible to every phase
of one row except the gated co-mention subquery, so the row-level bound is
exactly the bound of that subquery. -/
theorem addMemoryRow_coCount_le (g : GraphDB) (m : BatchMemory)
    (hnd : (m.entities.map Prod.fst).Nodup) (p : String × String) :
    coCount (addMemoryRow g m) p ≤ coCount g p +
      (if p.1 ∈ m.entities.map Prod.fst ∧ p.2 ∈ m.entities.map Prod.fst then 1 else 0) := by
  unfold addMemoryRow
  have hclear : ∀ g', coCount (clearIsNew g' m) p = coCount g' p := fun g' => rfl
  rw [hclear]
  set g1 := upsertMentions (addStorageCount
    (mergeSource (mergeAuthors (mergeMemoryNode g m) m) m) m) m with hg1
  have hbase : coCount g1 p = coCount g p := by
    show countOf g1.coMentions p = countOf g.coMentions p
    rw [hg1, upsertMentions_coMentions]
    show countOf (mergeSource (mergeAuthors (mergeMemoryNode g m) m) m).coMentions p = _
    rw [(mergeSource_parts _ m).1, (mergeAuthors_parts _ m).1, (mergeMemoryNode_parts g m).1]
  have hfold := coMentionFold_coCount_le m.id
    (entityPairs (m.entities.map Prod.fst)) g1 p
  have hcount := entityPairs_count_bound (m.entities.map Prod.fst) hnd p.1 p.2
  unfold runCoMentions
  have : (entityPairs (m.entities.map Prod.fst)).count p =
      (entityPairs (m.entities.map Prod.fst)).count (p.1, p.2) := by rfl
  omega

/-- C3 batch-level bound: each unordered entity pair counter grows by at
most one per batch row that mentions both entities. -/
theorem addMemoryBatch_coCount_le (g : GraphDB) (batch : List BatchMemory)
    (hnd : ∀ m ∈ batch, (m.entities.map Prod.fst).Nodup) (p : String × String) :
    coCount (addMemoryBatch g batch) p ≤ coCount g p +
      batch.countP (fun m => decide (p.1 ∈ m.entities.map Prod.fst ∧
        p.2 ∈ m.entities.map Prod.fst)) := by
  induction batch generalizing g with
  | nil => simp [addMemoryBatch]
  | cons m ms ih =>
    unfold addMemoryBatch at *
    rw [List.foldl_cons, List.countP_cons]
    have h1 := ih (addMemoryRow g m) (fun x hx => hnd x (List.mem_cons_of_mem m hx))
    have h2 := addMemoryRow_coCount_le g m (hnd m (List.mem_cons_self m ms)) p
    by_cases hm : p.1 ∈ m.entities.map Prod.fst ∧ p.2 ∈ m.entities.map Prod.fst
    · rw [if_pos hm] at h2
      have he : (decide (p.1 ∈ m.entities.map Prod.fst ∧
          p.2 ∈ m.entities.map Prod.fst)) = true := decide_eq_true hm
      rw [he, if_pos rfl]
      omega
    · rw [if_neg hm] at h2
      have he : (decide (p.1 ∈ m.entities.map Prod.fst ∧
          p.2 ∈ m.entities.map Prod.fst)) = false := decide_eq_false hm
      rw [he, if_neg (by simp)]
      omega

theorem find?_isSome_map {α : Type} (f : α → α) (q : α → Bool)
    (hq : ∀ e, q (f e) = q e) (l : List α) :
    ((l.map f).find? q).isSome = (l.find? q).isSome := by
  induction l with
  | nil => rfl
  | cons e es ih =>
    rw [List.map_cons]
    cases hqe : q e with
    | true =>
      rw [List.find?_cons_of_pos _ (by rw [hq]; exact hqe), List.find?_cons_of_pos _ hqe]
      rfl
    | false =>
      rw [List.find?_cons_of_neg _ (by simp [hq, hqe]), List.find?_cons_of_neg _ (by simp [hqe])]
      exact ih

theorem upsertMention_present_props (g : GraphDB) (a b : String) (c : Nat)
    (h : (findMention g a b).isSome = true)
    (hflags : ∀ e ∈ g.mentions, e.isNew = false) :
    (∀ x y, (findMention g x y).isSome = true →
      (findMention (upsertMention g a b c) x y).isSome = true) ∧
    (∀ e ∈ (upsertMention g a b c).mentions, e.isNew = false) ∧
    (upsertMention g a b c).coMentions = g.coMentions := by
  unfold upsertMention
  cases hf : findMention g a b with
  | none =>
    rw [hf] at h
    cases h
  | some men =>
    dsimp only
    refine ⟨?_, ?_, rfl⟩
    · intro x y hxy
      unfold findMention at hxy ⊢
      dsimp only
      rw [find?_isSome_map]
      · exact hxy
      · intro e
        split <;> rfl
    · intro e he
      rcases List.mem_map.mp he with ⟨e0, he0, heq⟩
      have := hflags e0 he0
      subst heq
      split <;> simp [this]

theorem upsertMentions_present_props (l : List (String × Nat)) (mid : String) (g : GraphDB)
    (hpresent : ∀ ed ∈ l, (findMention g mid ed.1).isSome = true)
    (hflags : ∀ e ∈ g.mentions, e.isNew = false) :
    (∀ x y, (findMention g x y).isSome = true →
      (findMention (l.foldl (fun g ed => upsertMention g mid ed.1 ed.2) g) x y).isSome = true) ∧
    (∀ e ∈ (l.foldl (fun g ed => upsertMention g mid ed.1 ed.2) g).mentions,
      e.isNew = false) := by
  induction l generalizing g with
  | nil => exact ⟨fun x y h => h, hflags⟩
  | cons ed eds ih =>
    rw [List.foldl_cons]
    have hp0 : (findMention g mid ed.1).isSome = true :=
      hpresent ed (List.mem_cons_self ed eds)
    obtain ⟨mono, flags, _⟩ := upsertMention_present_props g mid ed.1 ed.2 hp0 hflags
    have hpres' : ∀ e2 ∈ eds,
        (findMention (upsertMention g mid ed.1 ed.2) mid e2.1).isSome = true :=
      fun e2 he2 => mono mid e2.1 (hpresent e2 (List.mem_cons_of_mem ed he2))
    obtain ⟨mono', flags'⟩ := ih (upsertMention g mid ed.1 ed.2) hpres' flags
    exact ⟨fun x y h => mono' x y (mono x y h), flags'⟩

theorem upsertMentions_present_props2 (g : GraphDB) (m : BatchMemory)
    (hpresent : ∀ ed ∈ m.entities, (findMention g m.id ed.1).isSome = true)
    (hflags : ∀ e ∈ g.mentions, e.isNew = false) :
    (∀ x y, (findMention g x y).isSome = true →
      (findMention (upsertMentions g m) x y).isSome = true) ∧
    (∀ e ∈ (upsertMentions g m).mentions, e.isNew = false) :=
  upsertMentions_present_props m.entities m.id g hpresent hflags

theorem coMentionStep_no_new (mid : String) (g : GraphDB) (q : String × String)
    (hflags : ∀ e ∈ g.mentions, e.isNew = false) :
    coMentionStep mid g q = g := by
  unfold coMentionStep
  split
  case h_1 men1 men2 heq1 heq2 =>
    have h1 : men1.isNew = false :=
      hflags men1 (List.mem_of_find?_eq_some heq1)
    have h2 : men2.isNew = false :=
      hflags men2 (List.mem_of_find?_eq_some heq2)
    rw [h1, h2]
    simp
  case h_2 => rfl

theorem runCoMentions_no_new (pairs : List (String × String)) (mid : String) (g : GraphDB)
    (hflags : ∀ e ∈ g.mentions, e.isNew = false) :
    pairs.foldl (coMentionStep mid) g = g := by
  induction pairs with
  | nil => rfl
  | cons q qs ih =>
    rw [List.foldl_cons, coMentionStep_no_new mid g q hflags, ih]

theorem clearIsNew_props (g : GraphDB) (m : BatchMemory)
    (hflags : ∀ e ∈ g.mentions, e.isNew = false) :
    (clearIsNew g m).coMentions = g.coMentions ∧
    (∀ e ∈ (clearIsNew g m).mentions, e.isNew = false) ∧
    (∀ x y, (findMention g x y).isSome = true →
      (findMention (clearIsNew g m) x y).isSome = true) := by
  refine ⟨rfl, ?_, ?_⟩
  · intro e he
    rcases List.mem_map.mp he with ⟨e0, he0, heq⟩
    have := hflags e0 he0
    subst heq
    split <;> simp [this]
  · intro x y hxy
    unfold findMention at hxy ⊢
    dsimp only [clearIsNew]
    rw [find?_isSome_map]
    · exact hxy
    · intro e
      split <;> rfl

theorem mentions_eq_presence (g g' : GraphDB) (h : g'.mentions = g.mentions) :
    ∀ x y, (findMention g x y).isSome = true → (findMention g' x y).isSome = true := by
  intro x y hxy
  unfold findMention at hxy ⊢
  rw [h]
  exact hxy

theorem addMemoryRow_readd (g : GraphDB) (m : BatchMemory)
    (hflags : ∀ e ∈ g.mentions, e.isNew = false)
    (hpresent : ∀ ed ∈ m.entities, (findMention g m.id ed.1).isSome = true) :
    (addMemoryRow g m).coMentions = g.coMentions ∧
    (∀ e ∈ (addMemoryRow g m).mentions, e.isNew = false) ∧
    (∀ x y, (findMention g x y).isSome = true →
      (findMention (addMemoryRow g m) x y).isSome = true) := by
  unfold addMemoryRow
  set g0 := addStorageCount (mergeSource (mergeAuthors (mergeMemoryNode g m) m) m) m with hg0
  have hment0 : g0.mentions = g.mentions := by
    rw [hg0]
    show (mergeSource (mergeAuthors (mergeMemoryNode g m) m) m).mentions = _
    rw [(mergeSource_parts _ m).2, (mergeAuthors_parts _ m).2, (mergeMemoryNode_parts g m).2]
  have hco0 : g0.coMentions = g.coMentions := by
    rw [hg0]
    show (mergeSource (mergeAuthors (mergeMemoryNode g m) m) m).coMentions = _
    rw [(mergeSource_parts _ m).1, (mergeAuthors_parts _ m).1, (mergeMemoryNode_parts g m).1]
  have hflags0 : ∀ e ∈ g0.mentions, e.isNew = false := by
    rw [hment0]
    exact hflags
  have hpres0 : ∀ ed ∈ m.entities, (findMention g0 m.id ed.1).isSome = true := by
    intro ed hed
    exact mentions_eq_presence g g0 hment0 m.id ed.1 (hpresent ed hed)
  obtain ⟨umono, uflags⟩ := upsertMentions_present_props2 g0 m hpres0 hflags0
  have hrun : runCoMentions (upsertMentions g0 m) m = upsertMentions g0 m := by
    unfold runCoMentions
    exact runCoMentions_no_new _ m.id _ uflags
  rw [hrun]
  obtain ⟨cco, cflags, cmono⟩ := clearIsNew_props (upsertMentions g0 m) m uflags
  refine ⟨?_, cflags, ?_⟩
  · rw [cco, upsertMentions_coMentions, hco0]
  · intro x y hxy
    exact cmono x y (umono x y (mentions_eq_presence g g0 hment0 x y hxy))

theorem addMemoryBatch_readd (g : GraphDB) (batch : List BatchMemory)
    (hflags : ∀ e ∈ g.mentions, e.isNew = false)
    (hpresent : ∀ m ∈ batch, ∀ ed ∈ m.entities,
      (findMention g m.id ed.1).isSome = true) :
    (addMemoryBatch g batch).coMentions = g.coMentions := by
  induction batch generalizing g with
  | nil => rfl
  | cons m ms ih =>
    unfold addMemoryBatch at *
    rw [List.foldl_cons]
    obtain ⟨rco, rflags, rmono⟩ := addMemoryRow_readd g m hflags
      (hpresent m (List.mem_cons_self m ms))
    have hpres' : ∀ m2 ∈ ms, ∀ ed ∈ m2.entities,
        (findMention (addMemoryRow g m) m2.id ed.1).isSome = true :=
      fun m2 hm2 ed hed => rmono m2.id ed.1
        (hpresent m2 (List.mem_cons_of_mem m hm2) ed hed)
    rw [ih (addMemoryRow g m) rflags hpres', rco]

/-- C3: within a batch insert, each unordered entity pair co-mention counter
is incremented at most once per batch row whose memory mentions both
entities (first conjunct); re-adding memories whose MENTIONS edges already
exist (and with no stray isNew flag in the store, as every completed row
removes its own flags) increments no co-mention counter at all (second
conjunct); and concretely, adding one memory mentioning entities a and b to
an empty store sets the a-b counter to 1, and re-adding the identical
memory leaves it at 1 (third conjunct). -/
theorem coMention_increment_gating :
    (∀ (g : GraphDB) (batch : List BatchMemory) (p : String × String),
      (∀ m ∈ batch, (m.entities.map Prod.fst).Nodup) →
      coCount (addMemoryBatch g batch) p ≤ coCount g p +
        batch.countP (fun m => decide (p.1 ∈ m.entities.map Prod.fst ∧
          p.2 ∈ m.entities.map Prod.fst))) ∧
    (∀ (g : GraphDB) (batch : List BatchMemory),
      (∀ e ∈ g.mentions, e.isNew = false) →
      (∀ m ∈ batch, ∀ ed ∈ m.entities, (findMention g m.id ed.1).isSome = true) →
      (addMemoryBatch g batch).coMentions = g.coMentions) ∧
    (coCount (addMemoryBatch {} [⟨"m1", [("a", 1), ("b", 1)], [], none⟩]) ("a", "b") = 1 ∧
     coCount (addMemoryBatch
       (addMemoryBatch {} [⟨"m1", [("a", 1), ("b", 1)], [], none⟩])
       [⟨"m1", [("a", 1), ("b", 1)], [], none⟩]) ("a", "b") = 1) := by
  refine ⟨fun g batch p hnd => addMemoryBatch_coCount_le g batch hnd p,
    fun g batch hflags hpresent => addMemoryBatch_readd g batch hflags hpresent,
    by decide, by decide⟩

theorem bfsAux_depth_ge (edges : List (String × String)) :
    ∀ (fuel : Nat) (frontier visited : List String) (depth : Nat),
      ∀ q ∈ bfsAux edges fuel frontier visited depth, depth + 1 ≤ q.2 := by
  intro fuel
  induction fuel with
  | zero =>
    intro frontier visited depth q hq
    simp [bfsAux] at hq
  | succ f ih =>
    intro frontier visited depth q hq
    unfold bfsAux at hq
    rcases List.mem_append.mp hq with h | h
    · rcases List.mem_map.mp h with ⟨n, _, rfl⟩
      simp
    · have := ih _ _ _ q h
      omega

/-- C4 counterexample: in the chain O - B - C with B blacklisted, the node
C is reachable within max_depth 2 only through the blacklisted B, yet it is
returned with score 1/2: the breadth-first expansion passes through
blacklisted nodes, refuting the claim that a blacklisted node is never
traversed through. -/
theorem deepTraversal_blacklist_cex :
    deepRelationshipTraversal [("O", "B"), ("B", "C")] "O" 2 10 ["B"] =
      [("C", traversalScore 2)] ∧
    traversalScore 2 = 1 / 2 := by
  constructor
  · rfl
  · unfold traversalScore
    rw [max_eq_left (by norm_num)]
    norm_num

/-- C4 (amended): deep_relationship_traversal returns at most stop_k rows;
every returned row holds a non-origin node outside the blacklist, scored
1/max(d, 0.5) where d ≥ 1 is its discovery depth in the breadth-first
expansion.  The blacklist is only a result filter: the expansion passes
through blacklisted nodes, so a node reachable only via a blacklisted node
is still returned (see the counterexample).  Concretely, a chain at
distances 1, 2 and 3 from the origin yields scores 1, 1/2 and 1/3. -/
theorem deepRelationshipTraversal_spec :
    (∀ (edges : List (String × String)) (originId : String) (maxDepth stopK : Nat)
      (blacklist : List String),
      (deepRelationshipTraversal edges originId maxDepth stopK blacklist).length ≤ stopK ∧
      ∀ p ∈ deepRelationshipTraversal edges originId maxDepth stopK blacklist,
        p.1 ≠ originId ∧ p.1 ∉ blacklist ∧
        ∃ d, (p.1, d) ∈ bfsNodes edges originId maxDepth ∧ 1 ≤ d ∧
          p.2 = traversalScore d) ∧
    (deepRelationshipTraversal [("O", "A"), ("A", "B"), ("B", "C")] "O" 3 50 [] =
      [("A", traversalScore 1), ("B", traversalScore 2), ("C", traversalScore 3)] ∧
     traversalScore 2 = 1 / 2 ∧ traversalScore 3 = 1 / 3) := by
  refine ⟨?_, ?_, ?_, ?_⟩
  · intro edges originId maxDepth stopK blacklist
    constructor
    · unfold deepRelationshipTraversal
      rw [List.length_map]
      exact List.length_take_le _ _
    · intro p hp
      unfold deepRelationshipTraversal at hp
      rcases List.mem_map.mp hp with ⟨q, hq, rfl⟩
      have hqf := List.mem_of_mem_take hq
      rcases List.mem_filter.mp hqf with ⟨hqmem, hpred⟩
      have hpred' : q.1 ≠ originId ∧ q.1 ∉ blacklist := by
        simpa using hpred
      refine ⟨hpred'.1, hpred'.2, q.2, ?_, ?_, rfl⟩
      · exact hqmem
      · rcases List.mem_cons.mp hqmem with h | h
        · exfalso
          apply hpred'.1
          rw [h]
        · have := bfsAux_depth_ge edges maxDepth [originId] [originId] 0 q ?_
          · omega
          · exact h
  · rfl
  · unfold traversalScore
    rw [max_eq_left (by norm_num)]
    norm_num
  · unfold traversalScore
    rw [max_eq_left (by norm_num)]
    norm_num

/-- C8: each group of query_memories_by_entities belongs to one queried
entity and holds at most limit candidates, each candidate mentions the
primary entity and carries the count of other queried entities it also
mentions as its score, the group is ordered by that score descending and
then by last_access descending, and every queried entity has a group
(second conjunct).  On the example store, querying [A, B, C] ranks for
primary entity A the memory M3 (score 2) above M1 (score 1) above M2
(score 0). -/
theorem queryMemoriesByEntities_spec :
    (∀ (store : List EMem) (entityNames : List String) (limit : Nat) (primary : String)
      (l : List (EMem × Nat)),
      (primary, l) ∈ queryMemoriesByEntities store entityNames limit →
      l.length ≤ limit ∧
      (∀ q ∈ l, q.1.entities.contains primary = true ∧
        q.2 = diversityScore entityNames primary q.1) ∧
      l.Pairwise rankLE) ∧
    (∀ (store : List EMem) (entityNames : List String) (limit : Nat) (primary : String),
      primary ∈ entityNames →
      ∃ l, (primary, l) ∈ queryMemoriesByEntities store entityNames limit) ∧
    (("A", [(⟨"M3", ["A", "B", "C"], 20⟩, 2), (⟨"M1", ["A", "B"], 10⟩, 1),
        (⟨"M2", ["A"], 30⟩, 0)]) ∈
      queryMemoriesByEntities exampleEntityStore ["A", "B", "C"] 10) := by
  refine ⟨?_, ?_, ?_⟩
  · intro store entityNames limit primary l hl
    rcases List.mem_map.mp hl with ⟨p0, hp0, heq⟩
    rw [Prod.mk.injEq] at heq
    obtain ⟨rfl, rfl⟩ := heq
    refine ⟨List.length_take_le _ _, ?_, ?_⟩
    · intro q hq
      have hq1 : q ∈ entityCandidates store entityNames p0 := List.mem_of_mem_take hq
      unfold entityCandidates at hq1
      have hq2 := (List.perm_insertionSort rankLE _).subset hq1
      rcases List.mem_map.mp hq2 with ⟨m, hm, rfl⟩
      exact ⟨(List.mem_filter.mp hm).2, rfl⟩
    · apply List.Pairwise.sublist (List.take_sublist _ _)
      exact List.sorted_insertionSort rankLE _
  · intro store entityNames limit primary hp
    exact ⟨_, List.mem_map.mpr ⟨primary, List.mem_dedup.mpr hp, rfl⟩⟩
  · decide

theorem bumpCounter_find_pres {κ : Type} [BEq κ] [LawfulBEq κ]
    (l : List (κ × Nat)) (key q : κ) :
    ((bumpCounter l key).find? (fun p => p.1 == q)).isSome =
      ((l.find? (fun p => p.1 == q)).isSome || (key == q)) := by
  induction l with
  | nil =>
    simp only [bumpCounter, List.find?_nil, Option.isSome_none, Bool.false_or]
    cases hkq : (key == q) <;> simp [List.find?_cons, hkq]
  | cons p ps ih =>
    by_cases hp : (p.1 == key) = true
    · have hpk : p.1 = key := eq_of_beq hp
      simp only [bumpCounter, hp, if_true]
      cases hpq : (p.1 == q) <;>
        simp [List.find?_cons, hpq, hpk ▸ hpq]
    · simp only [bumpCounter, hp, Bool.false_eq_true, if_false]
      cases hpq : (p.1 == q) <;> simp [List.find?_cons, hpq, ih]

theorem countOf_append_single_self {κ : Type} [BEq κ] [LawfulBEq κ]
    (l : List (κ × Nat)) (key : κ) (v : Nat)
    (h : l.find? (fun p => p.1 == key) = none) :
    countOf (l ++ [(key, v)]) key = v := by
  unfold countOf
  rw [List.find?_append, h]
  simp [List.find?_cons]

theorem countOf_append_single_other {κ : Type} [BEq κ] [LawfulBEq κ]
    (l : List (κ × Nat)) (key q : κ) (v : Nat) (hne : (key == q) = false) :
    countOf (l ++ [(key, v)]) q = countOf l q := by
  unfold countOf
  rw [List.find?_append]
  cases hf : l.find? (fun p => p.1 == q) <;> simp [List.find?_cons, hne]

theorem find_append_single_pres {κ : Type} [BEq κ]
    (l : List (κ × Nat)) (key q : κ) (v : Nat) :
    ((l ++ [(key, v)]).find? (fun p => p.1 == q)).isSome =
      ((l.find? (fun p => p.1 == q)).isSome || (key == q)) := by
  rw [List.find?_append]
  cases hf : l.find? (fun p => p.1 == q) <;>
    cases hkq : (key == q) <;> simp [List.find?_cons, hkq]

theorem dictAdd_flatten_countP (d : List (String × List QueryRes)) (r : QueryRes)
    (p : QueryRes → Bool) :
    ((dictAdd d r).flatMap (fun e => e.2)).countP p =
      (d.flatMap (fun e => e.2)).countP p + (if p r then 1 else 0) := by
  induction d with
  | nil => simp [dictAdd, List.countP_cons]
  | cons e es ih =>
    unfold dictAdd
    by_cases he : (e.1 == r.queryId) = true
    · rw [if_pos he]
      simp [List.flatMap_cons, List.countP_append, List.countP_cons]
      omega
    · rw [if_neg (by simp [he])]
      simp [List.flatMap_cons, List.countP_append, ih]
      omega

theorem dictAdd_flatten_mem (d : List (String × List QueryRes)) (r x : QueryRes) :
    x ∈ (dictAdd d r).flatMap (fun e => e.2) ↔
      x ∈ d.flatMap (fun e => e.2) ∨ x = r := by
  induction d with
  | nil => simp [dictAdd]
  | cons e es ih =>
    unfold dictAdd
    by_cases he : (e.1 == r.queryId) = true
    · rw [if_pos he]
      simp only [List.flatMap_cons, List.mem_append, List.mem_singleton]
      tauto
    · rw [if_neg (by simp [he])]
      simp only [List.flatMap_cons, List.mem_append, ih]
      tauto

theorem addResult_small (rr : RetrievalResults) (r : QueryRes)
    (hs : rr.sources = []) (hl : r.result.length ≤ 1600) :
    addResult rr r = { rr with results := dictAdd rr.results r } := by
  unfold addResult
  rw [hs]
  rw [if_neg (by simp)]
  rw [if_neg (by omega)]

theorem purgeFold_small (S : List QueryRes) :
    ∀ rr : RetrievalResults, rr.sources = [] →
      (∀ r ∈ S, r.result.length ≤ 1600) →
      (S.foldl addResult rr).sources = [] ∧
      (∀ p : QueryRes → Bool,
        ((S.foldl addResult rr).results.flatMap (fun e => e.2)).countP p =
          (rr.results.flatMap (fun e => e.2)).countP p + S.countP p) ∧
      (∀ x : QueryRes,
        x ∈ (S.foldl addResult rr).results.flatMap (fun e => e.2) ↔
          x ∈ rr.results.flatMap (fun e => e.2) ∨ x ∈ S) := by
  induction S with
  | nil =>
    intro rr hs _
    exact ⟨hs, fun p => by simp, fun x => by simp⟩
  | cons r rs ih =>
    intro rr hs hl
    rw [List.foldl_cons, addResult_small rr r hs (hl r (List.mem_cons_self r rs))]
    obtain ⟨h1, h2, h3⟩ :=
      ih { rr with results := dictAdd rr.results r } hs
        (fun x hx => hl x (List.mem_cons_of_mem r hx))
    refine ⟨h1, ?_, ?_⟩
    · intro p
      rw [h2 p]
      show ((dictAdd rr.results r).flatMap (fun e => e.2)).countP p + _ = _
      rw [dictAdd_flatten_countP, List.countP_cons]
      omega
    · intro x
      rw [h3 x]
      show x ∈ (dictAdd rr.results r).flatMap (fun e => e.2) ∨ _ ↔ _
      rw [dictAdd_flatten_mem]
      simp only [List.mem_cons]
      tauto

theorem topK_none_eq (rr : RetrievalResults) (k : Option Nat) (ms : ℚ) (minQ : Nat) :
    topK rr k (some ms) none minQ =
      (topKBase rr k minQ).filter (fun r => ms ≤ r.score) := by
  cases k <;> rfl

theorem topKStep_mem_res (minQ : Nat)
    (st : List (String × Nat) × List QueryRes × List QueryRes) (r x : QueryRes)
    (hx : x ∈ (topKStep minQ st r).2.1) : x ∈ st.2.1 ∨ x = r := by
  unfold topKStep at hx
  split at hx
  · rcases List.mem_append.mp hx with h | h
    · exact Or.inl h
    · exact Or.inr (List.mem_singleton.mp h)
  · split at hx
    · rcases List.mem_append.mp hx with h | h
      · exact Or.inl h
      · exact Or.inr (List.mem_singleton.mp h)
    · exact Or.inl hx

theorem topKStep_mem_rem (minQ : Nat)
    (st : List (String × Nat) × List QueryRes × List QueryRes) (r x : QueryRes)
    (hx : x ∈ (topKStep minQ st r).2.2) : x ∈ st.2.2 ∨ x = r := by
  unfold topKStep at hx
  split at hx
  · exact Or.inl hx
  · split at hx
    · exact Or.inl hx
    · rcases List.mem_append.mp hx with h | h
      · exact Or.inl h
      · exact Or.inr (List.mem_singleton.mp h)

theorem topKFold_mem (minQ : Nat) :
    ∀ (input : List QueryRes)
      (st : List (String × Nat) × List QueryRes × List QueryRes) (x : QueryRes),
      (x ∈ (input.foldl (topKStep minQ) st).2.1 → x ∈ st.2.1 ∨ x ∈ input) ∧
      (x ∈ (input.foldl (topKStep minQ) st).2.2 → x ∈ st.2.2 ∨ x ∈ input) := by
  intro input
  induction input with
  | nil => intro st x; exact ⟨fun h => Or.inl h, fun h => Or.inl h⟩
  | cons r rs ih =>
    intro st x
    rw [List.foldl_cons]
    obtain ⟨h1, h2⟩ := ih (topKStep minQ st r) x
    constructor
    · intro hx
      rcases h1 hx with hx1 | hx2
      · rcases topKStep_mem_res minQ st r x hx1 with h | h
        · exact Or.inl h
        · exact Or.inr (h ▸ List.mem_cons_self r rs)
      · exact Or.inr (List.mem_cons_of_mem r hx2)
    · intro hx
      rcases h2 hx with hx1 | hx2
      · rcases topKStep_mem_rem minQ st r x hx1 with h | h
        · exact Or.inl h
        · exact Or.inr (h ▸ List.mem_cons_self r rs)
      · exact Or.inr (List.mem_cons_of_mem r hx2)

theorem queryFilter_append_pass (q : String) (l : List QueryRes) (r : QueryRes)
    (h : (r.queryId == q) = true) : queryFilter q (l ++ [r]) = queryFilter q l ++ [r] := by
  unfold queryFilter
  rw [List.filter_append]
  simp [h]

theorem queryFilter_append_drop (q : String) (l : List QueryRes) (r : QueryRes)
    (h : (r.queryId == q) = false) : queryFilter q (l ++ [r]) = queryFilter q l := by
  unfold queryFilter
  rw [List.filter_append]
  simp [h]

theorem topKInv_init (minQ : Nat) : topKInv minQ [] ([], [], []) := by
  intro q
  refine ⟨?_, ?_, ?_, ?_⟩ <;> simp [countOf, queryFilter]

theorem topKStep_inv (minQ : Nat) (hminQ : 0 < minQ) (pre : List QueryRes)
    (st : List (String × Nat) × List QueryRes × List QueryRes)
    (hInv : topKInv minQ pre st) (r : QueryRes) :
    topKInv minQ (pre ++ [r]) (topKStep minQ st r) := by
  obtain ⟨hc0, hp0, hr0, hm0⟩ := hInv r.queryId
  unfold topKStep
  cases hf : st.1.find? (fun p => p.1 == r.queryId) with
  | none =>
    rw [hf] at hp0
    simp only [Option.isSome_none] at hp0
    have hlen0 : (queryFilter r.queryId pre).length = 0 := by
      by_contra h
      rw [decide_eq_true (Nat.pos_of_ne_zero h)] at hp0
      exact Bool.false_ne_true hp0
    have hnil : queryFilter r.queryId pre = [] := List.length_eq_zero.mp hlen0
    intro q
    dsimp only
    by_cases hq : (r.queryId == q) = true
    · have hqe : r.queryId = q := eq_of_beq hq
      subst hqe
      have hQF : queryFilter r.queryId (pre ++ [r]) = [r] := by
        rw [queryFilter_append_pass _ _ _ (beq_self_eq_true _), hnil]
        rfl
      refine ⟨?_, ?_, ?_, ?_⟩
      · rw [countOf_append_single_self st.1 r.queryId 1 hf, hQF]
        simp only [List.length_singleton]
        omega
      · rw [find_append_single_pres, hf, hQF]
        simp
      · rw [queryFilter_append_pass _ _ _ (beq_self_eq_true _), hr0, hnil, hQF,
          List.take_nil, List.take_of_length_le (by simp; omega)]
        rfl
      · rw [hm0, hnil, hQF, List.drop_nil, List.drop_eq_nil_of_le (by simp; omega)]
    · obtain ⟨hc, hp, hr1, hm1⟩ := hInv q
      have hQF : queryFilter q (pre ++ [r]) = queryFilter q pre :=
        queryFilter_append_drop _ _ _ (by simpa using hq)
      refine ⟨?_, ?_, ?_, ?_⟩
      · rw [countOf_append_single_other st.1 r.queryId q 1 (by simpa using hq), hQF]
        exact hc
      · rw [find_append_single_pres, (by simpa using hq : (r.queryId == q) = false),
          Bool.or_false, hQF]
        exact hp
      · rw [queryFilter_append_drop _ _ _ (by simpa using hq), hQF]
        exact hr1
      · rw [hQF]
        exact hm1
  | some p =>
    have hc0p : countOf st.1 r.queryId = p.2 := by
      unfold countOf
      rw [hf]
      rfl
    rw [hc0p] at hc0
    dsimp only
    by_cases hlt : p.2 < minQ
    · rw [if_pos hlt]
      have hlen : (queryFilter r.queryId pre).length < minQ := by omega
      intro q
      dsimp only
      by_cases hq : (r.queryId == q) = true
      · have hqe : r.queryId = q := eq_of_beq hq
        subst hqe
        have hQF : queryFilter r.queryId (pre ++ [r]) =
            queryFilter r.queryId pre ++ [r] :=
          queryFilter_append_pass _ _ _ (beq_self_eq_true _)
        refine ⟨?_, ?_, ?_, ?_⟩
        · rw [bumpCounter_get_self, hc0p, hQF]
          simp only [List.length_append, List.length_singleton]
          omega
        · rw [bumpCounter_find_pres, hf, hQF]
          simp
        · have h1 : (queryFilter r.queryId pre ++ [r]).length ≤ minQ := by
            rw [List.length_append]
            simp only [List.length_singleton]
            omega
          rw [queryFilter_append_pass _ _ _ (beq_self_eq_true _), hr0, hQF,
            List.take_of_length_le (le_of_lt hlen), List.take_of_length_le h1]
        · have h1 : (queryFilter r.queryId pre ++ [r]).length ≤ minQ := by
            rw [List.length_append]
            simp only [List.length_singleton]
            omega
          rw [hm0, hQF, List.drop_eq_nil_of_le (le_of_lt hlen),
            List.drop_eq_nil_of_le h1]
      · obtain ⟨hc, hp, hr1, hm1⟩ := hInv q
        have hne : q ≠ r.queryId := by
          intro h
          subst h
          simp at hq
        have hQF : queryFilter q (pre ++ [r]) = queryFilter q pre :=
          queryFilter_append_drop _ _ _ (by simpa using hq)
        refine ⟨?_, ?_, ?_, ?_⟩
        · rw [bumpCounter_get_other st.1 r.queryId q hne, hQF]
          exact hc
        · rw [bumpCounter_find_pres, (by simpa using hq : (r.queryId == q) = false),
            Bool.or_false, hQF]
          exact hp
        · rw [queryFilter_append_drop _ _ _ (by simpa using hq), hQF]
          exact hr1
        · rw [hQF]
          exact hm1
    · rw [if_neg hlt]
      have hge : minQ ≤ (queryFilter r.queryId pre).length := by omega
      intro q
      dsimp only
      by_cases hq : (r.queryId == q) = true
      · have hqe : r.queryId = q := eq_of_beq hq
        subst hqe
        have hQF : queryFilter r.queryId (pre ++ [r]) =
            queryFilter r.queryId pre ++ [r] :=
          queryFilter_append_pass _ _ _ (beq_self_eq_true _)
        refine ⟨?_, ?_, ?_, ?_⟩
        · rw [hc0p, hc0, hQF]
          simp only [List.length_append, List.length_singleton]
          omega
        · rw [hf, hQF]
          simp only [Option.isSome_some, List.length_append, List.length_singleton]
          simp
        · rw [hr0, hQF, List.take_append_of_le_length hge]
        · rw [queryFilter_append_pass _ _ _ (beq_self_eq_true _), hm0, hQF,
            List.drop_append_of_le_length hge]
      · obtain ⟨hc, hp, hr1, hm1⟩ := hInv q
        have hQF : queryFilter q (pre ++ [r]) = queryFilter q pre :=
          queryFilter_append_drop _ _ _ (by simpa using hq)
        refine ⟨?_, ?_, ?_, ?_⟩
        · rw [hQF]
          exact hc
        · rw [hQF]
          exact hp
        · rw [hQF]
          exact hr1
        · rw [queryFilter_append_drop _ _ _ (by simpa using hq), hQF]
          exact hm1

theorem topKFold_inv (minQ : Nat) (hminQ : 0 < minQ) :
    ∀ (input pre : List QueryRes)
      (st : List (String × Nat) × List QueryRes × List QueryRes),
      topKInv minQ pre st →
      topKInv minQ (pre ++ input) (input.foldl (topKStep minQ) st) := by
  intro input
  induction input with
  | nil =>
    intro pre st h
    simpa using h
  | cons r rs ih =>
    intro pre st h
    rw [List.foldl_cons]
    have h2 := ih (pre ++ [r]) (topKStep minQ st r) (topKStep_inv minQ hminQ pre st h r)
    rw [List.append_assoc] at h2
    simpa using h2

theorem take_scores_ge (ms : ℚ) :
    ∀ (F : List QueryRes) (minQ : Nat), F.Pairwise scoreDescLE →
      minQ ≤ F.countP (fun r => decide (ms ≤ r.score)) →
      ∀ r ∈ F.take minQ, ms ≤ r.score := by
  intro F
  induction F with
  | nil =>
    intro minQ _ _ r hr
    simp at hr
  | cons f fs ih =>
    intro minQ hsort hcount r hr
    cases minQ with
    | zero => simp at hr
    | succ m =>
      rw [List.take_succ_cons] at hr
      by_cases hf : ms ≤ f.score
      · rcases List.mem_cons.mp hr with rfl | hrr
        · exact hf
        · refine ih m hsort.of_cons ?_ r hrr
          simp [List.countP_cons, hf] at hcount
          omega
      · exfalso
        have hzero : (f :: fs).countP (fun r => decide (ms ≤ r.score)) = 0 := by
          rw [List.countP_eq_zero]
          intro a ha
          rcases List.mem_cons.mp ha with rfl | ha2
          · simpa using hf
          · have hrel : scoreDescLE f a := List.rel_of_pairwise_cons hsort ha2
            simp only [decide_eq_true_eq]
            intro hma
            exact hf (le_trans hma hrel)
        omega

theorem topKChoose_spec (minQ : Nat) (kv : Nat) (qid : String) (ms : ℚ)
    (sorted : List QueryRes)
    (st : List (String × Nat) × List QueryRes × List QueryRes)
    (hres : queryFilter qid st.2.1 = (queryFilter qid sorted).take minQ)
    (hresmem : ∀ x ∈ st.2.1, x ∈ sorted)
    (hremmem : ∀ x ∈ st.2.2, x ∈ sorted)
    (hpair : sorted.Pairwise scoreDescLE)
    (hcnt : minQ ≤ sorted.countP
      (fun r => (r.queryId == qid) && decide (ms ≤ r.score))) :
    (∀ x ∈ (if st.2.1.length < kv then
        List.insertionSort scoreDescLE (st.2.1 ++ st.2.2.take (kv - st.2.1.length))
      else st.2.1), x ∈ sorted) ∧
    minQ ≤ (if st.2.1.length < kv then
        List.insertionSort scoreDescLE (st.2.1 ++ st.2.2.take (kv - st.2.1.length))
      else st.2.1).countP (fun r => (r.queryId == qid) && decide (ms ≤ r.score)) := by
  have hFcount : minQ ≤ (queryFilter qid sorted).countP
      (fun r => decide (ms ≤ r.score)) := by
    unfold queryFilter
    rw [List.countP_filter]
    calc minQ ≤ sorted.countP (fun r => (r.queryId == qid) && decide (ms ≤ r.score)) :=
          hcnt
      _ = sorted.countP (fun a => decide (ms ≤ a.score) && (a.queryId == qid)) :=
          List.countP_congr (fun a _ => by rw [Bool.and_comm])
  have hFlen : minQ ≤ (queryFilter qid sorted).length :=
    le_trans hFcount (List.countP_le_length _)
  have hFpair : (queryFilter qid sorted).Pairwise scoreDescLE :=
    List.Pairwise.sublist (List.filter_sublist _) hpair
  have htake_flo : ∀ r ∈ (queryFilter qid sorted).take minQ, ms ≤ r.score :=
    take_scores_ge ms _ minQ hFpair hFcount
  have htake_len : ((queryFilter qid sorted).take minQ).length = minQ := by
    rw [List.length_take]
    omega
  have hres_count : minQ ≤ st.2.1.countP
      (fun r => (r.queryId == qid) && decide (ms ≤ r.score)) := by
    have h1 : st.2.1.countP (fun r => (r.queryId == qid) && decide (ms ≤ r.score)) =
        (queryFilter qid st.2.1).countP (fun r => decide (ms ≤ r.score)) := by
      unfold queryFilter
      rw [List.countP_filter]
      exact List.countP_congr (fun a _ => by rw [Bool.and_comm])
    have h2 : ((queryFilter qid sorted).take minQ).countP
        (fun r => decide (ms ≤ r.score)) =
        ((queryFilter qid sorted).take minQ).length :=
      List.countP_eq_length.mpr (fun a ha => decide_eq_true (htake_flo a ha))
    rw [h1, hres, h2, htake_len]
  by_cases hlt : st.2.1.length < kv
  · rw [if_pos hlt]
    have hperm2 : List.Perm
        (List.insertionSort scoreDescLE (st.2.1 ++ st.2.2.take (kv - st.2.1.length)))
        (st.2.1 ++ st.2.2.take (kv - st.2.1.length)) :=
      List.perm_insertionSort _ _
    constructor
    · intro x hx
      rcases List.mem_append.mp (hperm2.subset hx) with h | h
      · exact hresmem x h
      · exact hremmem x (List.mem_of_mem_take h)
    · rw [hperm2.countP_eq, List.countP_append]
      omega
  · rw [if_neg hlt]
    exact ⟨hresmem, hres_count⟩

theorem topK_none_spec (rr : RetrievalResults) (k : Option Nat) (ms : ℚ)
    (minQ : Nat) (qid : String)
    (hmin : minQ ≤ (rr.results.flatMap (fun e => e.2)).countP
        (fun r => (r.queryId == qid) && decide (ms ≤ r.score))) :
    (∀ r ∈ topK rr k (some ms) none minQ,
        ms ≤ r.score ∧ r ∈ rr.results.flatMap (fun e => e.2)) ∧
    minQ ≤ (topK rr k (some ms) none minQ).countP (fun r => r.queryId == qid) := by
  have hperm : List.Perm
      (List.insertionSort scoreDescLE (rr.results.flatMap (fun e => e.2)))
      (rr.results.flatMap (fun e => e.2)) := List.perm_insertionSort _ _
  have hpair : (List.insertionSort scoreDescLE
      (rr.results.flatMap (fun e => e.2))).Pairwise scoreDescLE :=
    List.sorted_insertionSort scoreDescLE _
  have hscount : minQ ≤ (List.insertionSort scoreDescLE
      (rr.results.flatMap (fun e => e.2))).countP
      (fun r => (r.queryId == qid) && decide (ms ≤ r.score)) := by
    rw [hperm.countP_eq]
    exact hmin
  have hX : (∀ r ∈ topKBase rr k minQ, r ∈ rr.results.flatMap (fun e => e.2)) ∧
      minQ ≤ (topKBase rr k minQ).countP
        (fun r => (r.queryId == qid) && decide (ms ≤ r.score)) := by
    cases k with
    | none =>
      have hbase : topKBase rr none minQ =
          List.insertionSort scoreDescLE (rr.results.flatMap (fun e => e.2)) := rfl
      rw [hbase]
      exact ⟨fun r hr => hperm.subset hr, hscount⟩
    | some kv =>
      by_cases h0 : 0 < minQ
      · have hbase : topKBase rr (some kv) minQ =
            (if ((List.insertionSort scoreDescLE (rr.results.flatMap (fun e => e.2))).foldl
                  (topKStep minQ) ([], [], [])).2.1.length < kv then
              List.insertionSort scoreDescLE
                (((List.insertionSort scoreDescLE (rr.results.flatMap (fun e => e.2))).foldl
                    (topKStep minQ) ([], [], [])).2.1 ++
                  ((List.insertionSort scoreDescLE (rr.results.flatMap (fun e => e.2))).foldl
                      (topKStep minQ) ([], [], [])).2.2.take
                    (kv - ((List.insertionSort scoreDescLE
                        (rr.results.flatMap (fun e => e.2))).foldl
                        (topKStep minQ) ([], [], [])).2.1.length))
            else ((List.insertionSort scoreDescLE (rr.results.flatMap (fun e => e.2))).foldl
                (topKStep minQ) ([], [], [])).2.1) := by
          unfold topKBase
          dsimp only
          rw [if_pos h0]
        rw [hbase]
        have hinv := topKFold_inv minQ h0
          (List.insertionSort scoreDescLE (rr.results.flatMap (fun e => e.2)))
          [] ([], [], []) (topKInv_init minQ)
        rw [List.nil_append] at hinv
        obtain ⟨-, -, hresq, -⟩ := hinv qid
        have hmem := topKFold_mem minQ
          (List.insertionSort scoreDescLE (rr.results.flatMap (fun e => e.2)))
          ([], [], [])
        have hresmem : ∀ x ∈ ((List.insertionSort scoreDescLE
            (rr.results.flatMap (fun e => e.2))).foldl
              (topKStep minQ) ([], [], [])).2.1,
            x ∈ List.insertionSort scoreDescLE (rr.results.flatMap (fun e => e.2)) := by
          intro x hx
          rcases (hmem x).1 hx with h | h
          · simp at h
          · exact h
        have hremmem : ∀ x ∈ ((List.insertionSort scoreDescLE
            (rr.results.flatMap (fun e => e.2))).foldl
              (topKStep minQ) ([], [], [])).2.2,
            x ∈ List.insertionSort scoreDescLE (rr.results.flatMap (fun e => e.2)) := by
          intro x hx
          rcases (hmem x).2 hx with h | h
          · simp at h
          · exact h
        have hchoose := topKChoose_spec minQ kv qid ms
          (List.insertionSort scoreDescLE (rr.results.flatMap (fun e => e.2)))
          ((List.insertionSort scoreDescLE (rr.results.flatMap (fun e => e.2))).foldl
            (topKStep minQ) ([], [], []))
          hresq hresmem hremmem hpair hscount
        exact ⟨fun r hr => hperm.subset (hchoose.1 r hr), hchoose.2⟩
      · have hbase : topKBase rr (some kv) minQ =
            (List.insertionSort scoreDescLE (rr.results.flatMap (fun e => e.2))).take kv := by
          unfold topKBase
          dsimp only
          rw [if_neg h0]
        rw [hbase]
        constructor
        · intro r hr
          exact hperm.subset (List.mem_of_mem_take hr)
        · omega
  constructor
  · intro r hr
    rw [topK_none_eq] at hr
    have h1 := List.mem_filter.mp hr
    exact ⟨of_decide_eq_true h1.2, hX.1 r h1.1⟩
  · rw [topK_none_eq, List.countP_filter]
    exact hX.2

/-- **C7.**  For every ranked results store whose stored texts respect the
1600-character chunking bound maintained by add_result, and every query id
holding at least min_query_results results scored at or above min_score,
purge(min_score, max_results, min_query_results) keeps at least
min_query_results results of that query even when the global cap
max_results would otherwise exclude them, and every result kept by the
purge has score at least min_score. -/
theorem purge_guarantees (rr : RetrievalResults) (minScore : ℚ)
    (maxResults : Option Nat) (minQueryResults : Nat) (qid : String)
    (hlen : ∀ e ∈ rr.results, ∀ r ∈ e.2, r.result.length ≤ 1600)
    (hmin : minQueryResults ≤ (rr.results.flatMap (fun e => e.2)).countP
        (fun r => (r.queryId == qid) && decide (minScore ≤ r.score))) :
    minQueryResults ≤
      ((purge rr minScore maxResults minQueryResults).results.flatMap
        (fun e => e.2)).countP (fun r => r.queryId == qid) ∧
    ∀ e ∈ (purge rr minScore maxResults minQueryResults).results, ∀ r ∈ e.2,
      minScore ≤ r.score := by
  obtain ⟨hSprop, hScount⟩ :=
    topK_none_spec rr maxResults minScore minQueryResults qid hmin
  have hSlen : ∀ r ∈ topK rr maxResults (some minScore) none minQueryResults,
      r.result.length ≤ 1600 := by
    intro r hr
    rcases List.mem_flatMap.mp (hSprop r hr).2 with ⟨e, he, hre⟩
    exact hlen e he r hre
  obtain ⟨hs1, hs2, hs3⟩ := purgeFold_small
    (topK rr maxResults (some minScore) none minQueryResults) ⟨[], []⟩ rfl hSlen
  unfold purge
  constructor
  · rw [hs2 (fun r => r.queryId == qid)]
    simpa using hScount
  · intro e he r hre
    have hx := List.mem_flatMap.mpr ⟨e, he, hre⟩
    rcases (hs3 r).mp hx with h | h
    · simp at h
    · exact (hSprop r h).1

/-- Closed witness for purge_guarantees: on the store with query q1 scored
5 and 3 and query q2 scored 4, purge(4, 1, 1) keeps a q1 result even though
the global cap of 1 alone would have kept only the single top result, and
every survivor scores at least 4. -/
theorem purge_guarantees_witness :
    1 ≤ ((purge examplePurgeStore 4 (some 1) 1).results.flatMap
        (fun e => e.2)).countP (fun r => r.queryId == "q1") ∧
    ∀ e ∈ (purge examplePurgeStore 4 (some 1) 1).results, ∀ r ∈ e.2,
      (4 : ℚ) ≤ r.score :=
  purge_guarantees examplePurgeStore 4 (some 1) 1 "q1" (by decide) (by decide)

end DMA
